import Mathlib

/-!
The svfs directory cache and lister: a shallow embedding of `svfs/cache.go` and `svfs/lister.go`

The Go code keeps a process-wide `Cache` (a `map[string]*CacheValue` plus a
`uint64` node counter) behind a mutex.  Every public operation takes the map
lock for its whole duration, so the operations are modelled as sequential
state transformers on an explicit `Cache` value.

Modelling conventions
* `map[string]V` is an association list `GoMap V`; a well-formed map has
  pairwise distinct keys (`GoMap.WF`).  A possibly-nil map is an
  `Option (GoMap V)` where `none` is the nil map.
* `Node` is an interface declared outside of this file; it is a type
  parameter `N`, and a Go value of type `Node` is an `Option N` (`none` is the
  nil interface).
* `uint64` is a `Nat` with explicit reduction modulo `2 ^ 64`; `int64`
  configuration values are `Int`s (`Config.wf` records the int64 range).
* `time.Time` / `time.Duration` are `Int` nanosecond counts, and the clock
  reading `time.Now()` is an explicit argument `now`.
* a run-time panic is the result `none` of an `Option`-valued operation.
* in `Cache` the children map handed to `AddAll` is stored by value, which
  describes every run in which no two entries hold the same map object;
  `RefCache` is the same code with the map objects in a heap and the entries
  holding references, and is used where two entries may share a map.
-/

namespace Svfs

/-! ## Go maps -/

/-- Association-list model of a Go `map[string]V`. -/
abbrev GoMap (V : Type) := List (String × V)

/-- Lookup `m[k]` in comma-ok form: the first binding of `k`, if any. -/
def mapGet {V : Type} : GoMap V → String → Option V
  | [], _ => none
  | (k', v) :: m, k => if k' = k then some v else mapGet m k

/-- Assignment `m[k] = v`: overwrite the binding of `k` in place, or add one. -/
def mapSet {V : Type} : GoMap V → String → V → GoMap V
  | [], k, v => [(k, v)]
  | (k', v') :: m, k, v => if k' = k then (k, v) :: m else (k', v') :: mapSet m k v

/-- Builtin `delete(m, k)`. -/
def mapDelete {V : Type} (m : GoMap V) (k : String) : GoMap V :=
  m.filter (fun e => decide (e.1 ≠ k))

/-- Builtin `len(m)`. -/
def mapLen {V : Type} (m : GoMap V) : Nat := m.length

/-- Well-formed maps bind every key at most once. -/
def GoMap.WF {V : Type} (m : GoMap V) : Prop := (m.map Prod.fst).Nodup

/-- The value of `len(m)` for a map that may be nil. -/
def nodesLen {V : Type} : Option (GoMap V) → Nat
  | none => 0
  | some m => mapLen m

/-! ## Machine integers -/

/-- Conversion `uint64(x)` of an `int64`. -/
def toUint64 (x : Int) : Nat := (x % 2 ^ 64).toNat

/-- Addition on `uint64`. -/
def addU64 (a b : Nat) : Nat := (a + b) % 2 ^ 64

/-- Subtraction on `uint64`. -/
def subU64 (a b : Nat) : Nat := (a + 2 ^ 64 - b % 2 ^ 64) % 2 ^ 64

/-! ## Configuration and state -/

/-- The package-level variables `CacheTimeout`, `CacheMaxEntries`, `CacheMaxAccess`. -/
structure Config where
  CacheTimeout : Int
  CacheMaxEntries : Int
  CacheMaxAccess : Int
deriving DecidableEq

/-- Both counters of the configuration are `int64` values. -/
abbrev Config.wf (cfg : Config) : Prop :=
  -(2 ^ 63) ≤ cfg.CacheMaxEntries ∧ cfg.CacheMaxEntries < 2 ^ 63 ∧
  -(2 ^ 63) ≤ cfg.CacheMaxAccess ∧ cfg.CacheMaxAccess < 2 ^ 63

/-- A cache entry, `CacheValue` (the per-entry mutex is not represented). -/
structure CacheValue (N : Type) where
  date : Int
  accessCount : Nat
  temporary : Bool
  node : Option N
  nodes : Option (GoMap (Option N))
deriving DecidableEq

/-- The cache, `Cache` (the map mutex is not represented). -/
structure Cache (N : Type) where
  content : GoMap (CacheValue N)
  nodeCount : Nat
deriving DecidableEq

/-- Constructor `NewCache`: an empty content map and a zero node count. -/
def NewCache (N : Type) : Cache N := { content := [], nodeCount := 0 }

/-- Method `key`: `fmt.Sprintf("%s:%s", container, path)`. -/
def Cache.key (container path : String) : String := container ++ ":" ++ path

/-- The pair returned by `GetAll`: parent node and children map. -/
abbrev Listing (N : Type) := Option N × Option (GoMap (Option N))

/-! ## Operations -/

/-- Method `AddAll`, run at clock reading `now`. -/
def Cache.AddAll {N : Type} (cfg : Config) (now : Int) (c : Cache N) (container path : String)
    (node : Option N) (nodes : Option (GoMap (Option N))) : Cache N :=
  let entry : CacheValue N :=
    { date := now, accessCount := 0, temporary := false, node := node, nodes := nodes }
  if (¬ (cfg.CacheMaxEntries < 0) ∧
        addU64 c.nodeCount (nodesLen nodes) ≥ toUint64 cfg.CacheMaxEntries) ∨
      cfg.CacheMaxAccess = 0 then
    { content := mapSet c.content (Cache.key container path) { entry with temporary := true },
      nodeCount := c.nodeCount }
  else
    { content := mapSet c.content (Cache.key container path) entry,
      nodeCount := addU64 c.nodeCount (nodesLen nodes) }

/-- Method `Delete`: remove one child of an existing entry. -/
def Cache.Delete {N : Type} (c : Cache N) (container path name : String) : Cache N :=
  match mapGet c.content (Cache.key container path) with
  | none => c
  | some v =>
    let v' : CacheValue N := { v with nodes := v.nodes.map (fun m => mapDelete m name) }
    { c with content := mapSet c.content (Cache.key container path) v' }

/-- The statements of `deleteAll` that do not depend on `lock`: the lookup and
the guarded removal. -/
def Cache.deleteAllBody {N : Type} (c : Cache N) (container path : String) : Cache N :=
  match mapGet c.content (Cache.key container path) with
  | some v =>
    if v.temporary = false then
      { content := mapDelete c.content (Cache.key container path),
        nodeCount := subU64 c.nodeCount (nodesLen v.nodes) }
    else c
  | none => c

/-- Method `deleteAll`.  With `lock` set, `v.mutex.Lock()` runs on the looked-up
pointer before `found` is tested; on a missing key that pointer is nil and the
call panics. -/
def Cache.deleteAll {N : Type} (c : Cache N) (container path : String) (lock : Bool) :
    Option (Cache N) :=
  match lock, mapGet c.content (Cache.key container path) with
  | true, none => none
  | _, _ => some (c.deleteAllBody container path)

/-- Method `DeleteAll`: `deleteAll` with `lock` set. -/
def Cache.DeleteAll {N : Type} (c : Cache N) (container path : String) : Option (Cache N) :=
  c.deleteAll container path true

/-- Method `Get`: raw lookup of one child. -/
def Cache.Get {N : Type} (c : Cache N) (container path name : String) : Option N :=
  match mapGet c.content (Cache.key container path) with
  | none => none
  | some v =>
    match v.nodes with
    | none => none
    | some m => (mapGet m name).join

/-- The statement `v.accessCount++` on a `uint64` field. -/
def CacheValue.touch {N : Type} (v : CacheValue N) : CacheValue N :=
  { v with accessCount := addU64 v.accessCount 1 }

/-- Method `GetAll`, run at clock reading `now`.  The deferred call
`c.deleteAll(container, path, false)` runs after the results are fixed and,
having `lock` unset, is `deleteAllBody`. -/
def Cache.GetAll {N : Type} (cfg : Config) (now : Int) (c : Cache N) (container path : String) :
    Cache N × Listing N :=
  match mapGet c.content (Cache.key container path) with
  | none => (c, (none, none))
  | some v =>
    let v' := v.touch
    let c' : Cache N := { c with content := mapSet c.content (Cache.key container path) v' }
    if now > v'.date + cfg.CacheTimeout then
      (c'.deleteAllBody container path, (none, none))
    else if v'.temporary = true ∨
        (¬ (cfg.CacheMaxAccess < 0) ∧ v'.accessCount = toUint64 cfg.CacheMaxAccess) then
      (c'.deleteAllBody container path, (v'.node, v'.nodes))
    else
      (c', (v'.node, v'.nodes))

/-- Method `Peek`, run at clock reading `now`. -/
def Cache.Peek {N : Type} (cfg : Config) (now : Int) (c : Cache N) (container path : String) :
    Option N × Bool :=
  match mapGet c.content (Cache.key container path) with
  | none => (none, false)
  | some v => if now > v.date + cfg.CacheTimeout then (none, false) else (v.node, true)

/-- Method `Set`: assign one child of an existing entry.  Assigning into a nil
children map panics. -/
def Cache.Set {N : Type} (c : Cache N) (container path name : String) (node : Option N) :
    Option (Cache N) :=
  match mapGet c.content (Cache.key container path) with
  | none => some c
  | some v =>
    match v.nodes with
    | none => none
    | some m =>
      let v' : CacheValue N := { v with nodes := some (mapSet m name node) }
      some { c with content := mapSet c.content (Cache.key container path) v' }

/-! ## Calls as data: traces of operations -/

/-- One call of a public `Cache` method with its arguments. -/
inductive Op (N : Type) where
  | AddAll (container path : String) (node : Option N) (nodes : Option (GoMap (Option N)))
  | Delete (container path name : String)
  | DeleteAll (container path : String)
  | Get (container path name : String)
  | GetAll (container path : String)
  | Peek (container path : String)
  | Set (container path name : String) (node : Option N)
deriving DecidableEq

/-- What a call hands back to its caller. -/
inductive Ret (N : Type) where
  | done
  | node (n : Option N)
  | listing (r : Listing N)
  | peek (r : Option N × Bool)
deriving DecidableEq

/-- The cache key a call addresses. -/
def Op.key {N : Type} : Op N → String
  | .AddAll container path _ _ => Cache.key container path
  | .Delete container path _ => Cache.key container path
  | .DeleteAll container path => Cache.key container path
  | .Get container path _ => Cache.key container path
  | .GetAll container path => Cache.key container path
  | .Peek container path => Cache.key container path
  | .Set container path _ _ => Cache.key container path

/-- The (container, path) pair a call is made on. -/
def Op.target {N : Type} : Op N → String × String
  | .AddAll container path _ _ => (container, path)
  | .Delete container path _ => (container, path)
  | .DeleteAll container path => (container, path)
  | .Get container path _ => (container, path)
  | .GetAll container path => (container, path)
  | .Peek container path => (container, path)
  | .Set container path _ _ => (container, path)

/-- Recognises calls of `GetAll`. -/
def Op.isGetAll {N : Type} : Op N → Bool
  | .GetAll _ _ => true
  | _ => false

/-- Run one call at clock reading `now`; `none` is a panic. -/
def Cache.step {N : Type} (cfg : Config) (now : Int) (c : Cache N) : Op N → Option (Cache N × Ret N)
  | .AddAll container path node nodes =>
    some (c.AddAll cfg now container path node nodes, Ret.done)
  | .Delete container path name => some (c.Delete container path name, Ret.done)
  | .DeleteAll container path => (c.DeleteAll container path).map (fun c' => (c', Ret.done))
  | .Get container path name => some (c, Ret.node (c.Get container path name))
  | .GetAll container path =>
    some ((c.GetAll cfg now container path).1, Ret.listing (c.GetAll cfg now container path).2)
  | .Peek container path => some (c, Ret.peek (c.Peek cfg now container path))
  | .Set container path name node => (c.Set container path name node).map (fun c' => (c', Ret.done))

/-- Run a sequence of timed calls, collecting what each returns; `none` as soon
as one of them panics. -/
def Cache.run {N : Type} (cfg : Config) (c : Cache N) : List (Int × Op N) → Option (Cache N × List (Ret N))
  | [] => some (c, [])
  | (now, op) :: tr =>
    match c.step cfg now op with
    | none => none
    | some (c', r) =>
      match Cache.run cfg c' tr with
      | none => none
      | some (c'', rs) => some (c'', r :: rs)

/-- The returns of those calls of a trace that address key `k`, in order. -/
def retsAt {N : Type} (k : String) : List (Int × Op N) → List (Ret N) → List (Ret N)
  | (_, op) :: tr, r :: rs => if op.key = k then r :: retsAt k tr rs else retsAt k tr rs
  | _, _ => []

/-! ## Budget accounting -/

/-- Number of children an entry contributes to the node budget: all of them
for a non-temporary entry, none for a temporary one. -/
def CacheValue.share {N : Type} (v : CacheValue N) : Nat :=
  if v.temporary = true then 0 else nodesLen v.nodes

/-- Total number of children held by the non-temporary entries of a content map. -/
def contentTotal {N : Type} (m : GoMap (CacheValue N)) : Nat :=
  (m.map (fun e => e.2.share)).sum

/-- Total number of children held by the non-temporary entries of the cache. -/
def Cache.budgetTotal {N : Type} (c : Cache N) : Nat := contentTotal c.content

/-- Calls whose effect on the children of non-temporary entries is accounted
for in the node count: `AddAll`, `Set` and `Delete` only on a key whose entry
is missing or temporary; every other call. -/
def Op.tracked {N : Type} (c : Cache N) : Op N → Prop
  | .AddAll container path _ _ =>
    ∀ v, mapGet c.content (Cache.key container path) = some v → v.temporary = true
  | .Delete container path _ =>
    ∀ v, mapGet c.content (Cache.key container path) = some v → v.temporary = true
  | .Set container path _ _ =>
    ∀ v, mapGet c.content (Cache.key container path) = some v → v.temporary = true
  | _ => True

/-- States reachable from the empty cache by tracked calls. -/
inductive TrackedReach {N : Type} (cfg : Config) : Cache N → Prop where
  | init : TrackedReach cfg (NewCache N)
  | call {c c' : Cache N} {now : Int} {op : Op N} {r : Ret N} :
      TrackedReach cfg c → op.tracked c → c.step cfg now op = some (c', r) → TrackedReach cfg c'

/-! ## Concrete configurations and states on which the code is evaluated -/

/-- Caching disabled: access ceiling 0, unlimited budget, TTL 10. -/
def cfgDisabled : Config := { CacheTimeout := 10, CacheMaxEntries := -1, CacheMaxAccess := 0 }

/-- Unlimited budget and unlimited access, TTL 10. -/
def cfgUnlimited : Config := { CacheTimeout := 10, CacheMaxEntries := -1, CacheMaxAccess := -1 }

/-- Node budget 5, unlimited access, TTL 10. -/
def cfgBudget5 : Config := { CacheTimeout := 10, CacheMaxEntries := 5, CacheMaxAccess := -1 }

/-- Access ceiling 2, unlimited budget, TTL 10. -/
def cfgCeiling2 : Config := { CacheTimeout := 10, CacheMaxEntries := -1, CacheMaxAccess := 2 }

/-- A children map with the single child `"a"`. -/
def kidA : Option (GoMap (Option String)) := some [("a", some "A")]

/-- The cache after `AddAll("c", "p", P, {"a": A})` at time 0 with caching disabled. -/
def tempState : Cache String :=
  (NewCache String).AddAll cfgDisabled 0 "c" "p" (some "P") kidA

/-- The cache after `AddAll("c", "p", P, {"a": A})` at time 0 under ceiling 2. -/
def ceilingState : Cache String :=
  (NewCache String).AddAll cfgCeiling2 0 "c" "p" (some "P") kidA

/-- Three reads of `("c", "p")` with a lookup on another key in between. -/
def ceilingTrace : List (Int × Op String) :=
  [(1, Op.GetAll "c" "p"), (2, Op.Get "c" "q" "x"), (3, Op.GetAll "c" "p"), (4, Op.GetAll "c" "p")]

/-- What the four calls of `ceilingTrace` return. -/
def ceilingRets : List (Ret String) :=
  [Ret.listing (some "P", kidA), Ret.node none, Ret.listing (some "P", kidA),
    Ret.listing (none, none)]

/-- A children map with five children. -/
def kids5 : Option (GoMap (Option String)) :=
  some [("a", some "A"), ("b", some "B"), ("d", some "D"), ("e", some "E"), ("f", some "F")]

/-- The calls `AddAll("c", "p", P, {})` and then `Set("c", "p", "a", A)`. -/
def growTrace : List (Int × Op String) :=
  [(0, Op.AddAll "c" "p" (some "P") (some [])), (1, Op.Set "c" "p" "a" (some "A"))]

/-- The cache after `growTrace`: one non-temporary entry holding one child,
node count 0. -/
def grownState : Cache String :=
  { content := [(Cache.key "c" "p",
      { date := 0, accessCount := 0, temporary := false, node := some "P", nodes := kidA })],
    nodeCount := 0 }

/-- The calls of `growTrace` followed by `DeleteAll("c", "p")`. -/
def wrapTrace : List (Int × Op String) := growTrace ++ [(2, Op.DeleteAll "c" "p")]

/-- The cache after `wrapTrace`: empty, with the node count wrapped around to
`2 ^ 64 - 1`. -/
def wrappedState : Cache String := { content := [], nodeCount := 18446744073709551615 }

/-- The cache after `AddAll("c1", "/x", P1, 5 children)` at time 0 on an empty
cache with budget 5. -/
def scenarioFirst : Cache String :=
  (NewCache String).AddAll cfgBudget5 0 "c1" "/x" (some "P1") kids5

/-- The cache after a further `AddAll("c1", "/y", P2, 1 child)` at time 1. -/
def scenarioState : Cache String :=
  scenarioFirst.AddAll cfgBudget5 1 "c1" "/y" (some "P2") kidA


/-! ## Override cache: `SimpleCache` -/

/-- The override cache, `SimpleCache`: a flat map from key to node. -/
structure SimpleCache (N : Type) where
  changes : GoMap (Option N)
deriving DecidableEq

/-- Constructor `NewSimpleCache`: an empty map. -/
def NewSimpleCache (N : Type) : SimpleCache N := { changes := [] }

/-- Method `key` of `SimpleCache`: `fmt.Sprintf("%s:%s", container, path)`. -/
def SimpleCache.key (container path : String) : String := container ++ ":" ++ path

/-- Method `Add`: `c.changes[key] = node`. -/
def SimpleCache.Add {N : Type} (c : SimpleCache N) (container path : String) (node : Option N) :
    SimpleCache N :=
  { changes := mapSet c.changes (SimpleCache.key container path) node }

/-- Method `Exist`: `c.changes[key] != nil`, a test on the looked-up value. -/
def SimpleCache.Exist {N : Type} (c : SimpleCache N) (container path : String) : Bool :=
  ((mapGet c.changes (SimpleCache.key container path)).join).isSome

/-- Method `Get` of `SimpleCache`: `c.changes[key]`, nil when the key is missing. -/
def SimpleCache.Get {N : Type} (c : SimpleCache N) (container path : String) : Option N :=
  (mapGet c.changes (SimpleCache.key container path)).join

/-- Method `Remove`: `delete(c.changes, key)`. -/
def SimpleCache.Remove {N : Type} (c : SimpleCache N) (container path : String) : SimpleCache N :=
  { changes := mapDelete c.changes (SimpleCache.key container path) }

/-- One mutating call on a `SimpleCache`. -/
inductive ChangeOp (N : Type) where
  | Add (container path : String) (node : Option N)
  | Remove (container path : String)
deriving DecidableEq

/-- The key a mutating call addresses. -/
def ChangeOp.key {N : Type} : ChangeOp N → String
  | .Add container path _ => SimpleCache.key container path
  | .Remove container path => SimpleCache.key container path

/-- Run one mutating call. -/
def SimpleCache.apply {N : Type} (c : SimpleCache N) : ChangeOp N → SimpleCache N
  | .Add container path node => c.Add container path node
  | .Remove container path => c.Remove container path

/-- Run a sequence of mutating calls, earliest first. -/
def SimpleCache.applyAll {N : Type} (c : SimpleCache N) (ops : List (ChangeOp N)) : SimpleCache N :=
  ops.foldl SimpleCache.apply c

/-- The most recent call of a sequence (earliest first) that addresses key `k`. -/
def lastCall {N : Type} (k : String) (ops : List (ChangeOp N)) : Option (ChangeOp N) :=
  ops.reverse.find? (fun op => decide (op.key = k))

/-- The node a key is bound to when its most recent call is `call`: the node
given to an `Add`, and no binding after a `Remove` or without any call. -/
def boundNode {N : Type} : Option (ChangeOp N) → Option (Option N)
  | some (.Add _ _ node) => some node
  | _ => none

/-! ## Metadata lister -/

/-- Modelled from the spec: the response-header mapping of a node
(`swift.Headers`), from header name to value. -/
abbrev Headers := GoMap String

/-- Read `h[name]` of a header mapping: the empty string when the header is missing. -/
def headerGet (h : Headers) (name : String) : String := (mapGet h name).getD ""

/-- Modelled from the spec: the container identifier of a node, of which the
worker reads `Name`. -/
structure Container where
  Name : String
deriving DecidableEq

/-- Modelled from the spec: the remote object descriptor of a node, of which
the worker reads `Name`; `info` stands for the remaining metadata (size,
content type, ...). -/
structure Descriptor (I : Type) where
  Name : String
  info : I
deriving DecidableEq

/-- Modelled from the spec: the `Object` variant of a node, with its container
`c`, descriptor `so`, headers `sh` and segmentation flag. -/
structure Object (I : Type) where
  c : Container
  so : Descriptor I
  sh : Headers
  segmented : Bool
deriving DecidableEq

/-- Modelled from the spec: the `Directory` variant of a node. -/
structure Directory (I : Type) where
  c : Container
  so : Descriptor I
  sh : Headers
deriving DecidableEq

/-- Modelled from the spec: the `Symlink` variant of a node. -/
structure Symlink (I : Type) where
  c : Container
  so : Descriptor I
  sh : Headers
deriving DecidableEq

/-- The node of a task by dynamic type: one of the three variants the worker
tests for, or anything else (the nil interface included). -/
inductive TaskNode (I : Type) where
  | object (o : Object I)
  | directory (d : Directory I)
  | symlink (s : Symlink I)
  | other
deriving DecidableEq

/-- Modelled from the spec: what `lister.go` uses of the remote store client
and of the manifest marker.  `Object container name` is `SwiftConnection.Object`
with the error result left out, as the worker discards it; `segmentPathRegex`
is the match test of the segment-path marker; `manifestHeader` is the name of
the manifest header. -/
structure SwiftConnection (I : Type) where
  Object : String → String → Descriptor I × Headers
  segmentPathRegex : String → Bool
  manifestHeader : String

/-- The body of the loop of `processTasks` for one task with node `n`: the
nodes the worker sends on the result channel of the task. -/
def processTask {I : Type} (conn : SwiftConnection I) : TaskNode I → List (TaskNode I)
  | .object o =>
    let fetched := conn.Object o.c.Name o.so.Name
    let o1 : Object I :=
      if conn.segmentPathRegex (headerGet fetched.2 conn.manifestHeader) = true then
        { o with segmented := true }
      else o
    let o2 : Object I := { o1 with sh := fetched.2 }
    let o3 : Object I := { o2 with so := fetched.1 }
    [TaskNode.object o3]
  | .directory d =>
    let fetched := conn.Object d.c.Name d.so.Name
    let d1 : Directory I := { d with sh := fetched.2 }
    let d2 : Directory I := { d1 with so := fetched.1 }
    [TaskNode.directory d2]
  | .symlink s =>
    let fetched := conn.Object s.c.Name s.so.Name
    let s1 : Symlink I := { s with sh := fetched.2 }
    let s2 : Symlink I := { s1 with so := fetched.1 }
    [TaskNode.symlink s2]
  | .other => []

/-- One worker running `processTasks` over the tasks it receives, in order:
for each task the nodes sent on its result channel. -/
def processTasks {I : Type} (conn : SwiftConnection I) (tasks : List (TaskNode I)) :
    List (List (TaskNode I)) :=
  tasks.map (processTask conn)

/-! ## Further concrete states -/

/-- The cache after `AddAll("c", "p", P, {"a": A})` at time 0, unlimited budget
and access: one non-temporary entry, node count 1. -/
def plainState : Cache String :=
  (NewCache String).AddAll cfgUnlimited 0 "c" "p" (some "P") kidA

/-- Three reads of `("c", "p")` with a lookup on another key in between. -/
def readTrace : List (Int × Op String) :=
  [(1, Op.GetAll "c" "p"), (2, Op.Get "c" "q" "x"), (3, Op.GetAll "c" "p"), (4, Op.GetAll "c" "p")]

/-- What the four calls of `readTrace` return on `plainState`. -/
def readRets : List (Ret String) :=
  [Ret.listing (some "P", kidA), Ret.node none, Ret.listing (some "P", kidA),
    Ret.listing (some "P", kidA)]

/-- The cache after `readTrace` on `plainState`: the entry is still there, read
three times. -/
def readFinal : Cache String :=
  { content := [(Cache.key "c" "p",
      { date := 0, accessCount := 3, temporary := false, node := some "P", nodes := kidA })],
    nodeCount := 1 }

/-- The cache after `AddAll("c", "p", P, nil)` at time 0, unlimited budget and
access: an entry whose children map is nil. -/
def nilChildrenState : Cache String :=
  (NewCache String).AddAll cfgUnlimited 0 "c" "p" (some "P") none

/-- A store client whose answer to every request is the descriptor `"fetched"`
with no headers, with a marker that matches the values containing `'/'`. -/
def plainConnection : SwiftConnection Nat :=
  { Object := fun _ _ => ({ Name := "fetched", info := 7 }, []),
    segmentPathRegex := fun s => decide ('/' ∈ s.data),
    manifestHeader := "X-Object-Manifest" }

/-- An `Object` whose segmentation flag is already set. -/
def flaggedObject : Object Nat :=
  { c := { Name := "c1" }, so := { Name := "o1", info := 0 }, sh := [], segmented := true }

/-! ## The cache with children maps held by reference

`AddAll` stores the map value it is handed, which in Go is a reference to a
map object, and `Set` and `Delete` write into that object in place.  `RefCache`
is the same code as `Cache` with the map objects kept in a heap and the entries
holding references into it, so that two entries can hold the same map object. -/

/-- A Go value of type `map[string]Node`: nil, or the address of a map object. -/
abbrev MapRef := Option Nat

/-- The map objects of the program, by address. -/
abbrev MapHeap (N : Type) := Nat → GoMap (Option N)

/-- Write the map object at address `r`. -/
def heapSet {N : Type} (heap : MapHeap N) (r : Nat) (m : GoMap (Option N)) : MapHeap N :=
  fun r' => if r' = r then m else heap r'

/-- The value of `len(nodes)` for a map value that may be nil. -/
def refLen {N : Type} (heap : MapHeap N) : MapRef → Nat
  | none => 0
  | some r => mapLen (heap r)

/-- A cache entry, `CacheValue`, whose field `nodes` is a map reference. -/
structure RefCacheValue (N : Type) where
  date : Int
  accessCount : Nat
  temporary : Bool
  node : Option N
  nodes : MapRef
deriving DecidableEq

/-- The cache, `Cache`, together with the map objects its entries refer to. -/
structure RefCache (N : Type) where
  content : GoMap (RefCacheValue N)
  nodeCount : Nat
  heap : MapHeap N

/-- Constructor `NewCache`, in a program whose map objects are `heap`. -/
def NewRefCache {N : Type} (heap : MapHeap N) : RefCache N :=
  { content := [], nodeCount := 0, heap := heap }

/-- Method `AddAll` on `RefCache`: the entry stores the reference `nodes`; no
map object is created, copied or written. -/
def RefCache.AddAll {N : Type} (cfg : Config) (now : Int) (c : RefCache N)
    (container path : String) (node : Option N) (nodes : MapRef) : RefCache N :=
  let entry : RefCacheValue N :=
    { date := now, accessCount := 0, temporary := false, node := node, nodes := nodes }
  if (¬ (cfg.CacheMaxEntries < 0) ∧
        addU64 c.nodeCount (refLen c.heap nodes) ≥ toUint64 cfg.CacheMaxEntries) ∨
      cfg.CacheMaxAccess = 0 then
    { content := mapSet c.content (Cache.key container path) { entry with temporary := true },
      nodeCount := c.nodeCount, heap := c.heap }
  else
    { content := mapSet c.content (Cache.key container path) entry,
      nodeCount := addU64 c.nodeCount (refLen c.heap nodes), heap := c.heap }

/-- Method `Delete` on `RefCache`: `delete(v.nodes, name)` writes the map object
the entry refers to; on a nil map it does nothing. -/
def RefCache.Delete {N : Type} (c : RefCache N) (container path name : String) : RefCache N :=
  match mapGet c.content (Cache.key container path) with
  | none => c
  | some v =>
    match v.nodes with
    | none => c
    | some r => { c with heap := heapSet c.heap r (mapDelete (c.heap r) name) }

/-- The statements of `deleteAll` that do not depend on `lock`, on `RefCache`. -/
def RefCache.deleteAllBody {N : Type} (c : RefCache N) (container path : String) : RefCache N :=
  match mapGet c.content (Cache.key container path) with
  | some v =>
    if v.temporary = false then
      { content := mapDelete c.content (Cache.key container path),
        nodeCount := subU64 c.nodeCount (refLen c.heap v.nodes), heap := c.heap }
    else c
  | none => c

/-- Method `deleteAll` on `RefCache`; with `lock` set a missing key panics. -/
def RefCache.deleteAll {N : Type} (c : RefCache N) (container path : String) (lock : Bool) :
    Option (RefCache N) :=
  match lock, mapGet c.content (Cache.key container path) with
  | true, none => none
  | _, _ => some (c.deleteAllBody container path)

/-- Method `DeleteAll` on `RefCache`. -/
def RefCache.DeleteAll {N : Type} (c : RefCache N) (container path : String) :
    Option (RefCache N) :=
  c.deleteAll container path true

/-- Method `Get` on `RefCache`: `v.nodes[name]` reads the map object the entry
refers to. -/
def RefCache.Get {N : Type} (c : RefCache N) (container path name : String) : Option N :=
  match mapGet c.content (Cache.key container path) with
  | none => none
  | some v =>
    match v.nodes with
    | none => none
    | some r => (mapGet (c.heap r) name).join

/-- The statement `v.accessCount++`, on an entry of `RefCache`. -/
def RefCacheValue.touch {N : Type} (v : RefCacheValue N) : RefCacheValue N :=
  { v with accessCount := addU64 v.accessCount 1 }

/-- Method `GetAll` on `RefCache`, run at clock reading `now`: it returns the
parent and the map reference of the entry. -/
def RefCache.GetAll {N : Type} (cfg : Config) (now : Int) (c : RefCache N)
    (container path : String) : RefCache N × (Option N × MapRef) :=
  match mapGet c.content (Cache.key container path) with
  | none => (c, (none, none))
  | some v =>
    let v' := v.touch
    let c' : RefCache N := { c with content := mapSet c.content (Cache.key container path) v' }
    if now > v'.date + cfg.CacheTimeout then
      (c'.deleteAllBody container path, (none, none))
    else if v'.temporary = true ∨
        (¬ (cfg.CacheMaxAccess < 0) ∧ v'.accessCount = toUint64 cfg.CacheMaxAccess) then
      (c'.deleteAllBody container path, (v'.node, v'.nodes))
    else
      (c', (v'.node, v'.nodes))

/-- What the caller of `GetAll` holds when the call returns: the parent and
the children found in the map object that was returned. -/
def RefCache.GetAllView {N : Type} (cfg : Config) (now : Int) (c : RefCache N)
    (container path : String) : Listing N :=
  ((c.GetAll cfg now container path).2.1,
    (c.GetAll cfg now container path).2.2.map (c.GetAll cfg now container path).1.heap)

/-- Method `Peek` on `RefCache`, run at clock reading `now`. -/
def RefCache.Peek {N : Type} (cfg : Config) (now : Int) (c : RefCache N)
    (container path : String) : Option N × Bool :=
  match mapGet c.content (Cache.key container path) with
  | none => (none, false)
  | some v => if now > v.date + cfg.CacheTimeout then (none, false) else (v.node, true)

/-- Method `Set` on `RefCache`: `v.nodes[name] = node` writes the map object the
entry refers to, and panics on a nil map. -/
def RefCache.Set {N : Type} (c : RefCache N) (container path name : String) (node : Option N) :
    Option (RefCache N) :=
  match mapGet c.content (Cache.key container path) with
  | none => some c
  | some v =>
    match v.nodes with
    | none => none
    | some r => some { c with heap := heapSet c.heap r (mapSet (c.heap r) name node) }

/-- One call of a public `Cache` method, with the children map of `AddAll`
given by reference. -/
inductive RefOp (N : Type) where
  | AddAll (container path : String) (node : Option N) (nodes : MapRef)
  | Delete (container path name : String)
  | DeleteAll (container path : String)
  | Get (container path name : String)
  | GetAll (container path : String)
  | Peek (container path : String)
  | Set (container path name : String) (node : Option N)
deriving DecidableEq

/-- The (container, path) pair a call is made on. -/
def RefOp.target {N : Type} : RefOp N → String × String
  | .AddAll container path _ _ => (container, path)
  | .Delete container path _ => (container, path)
  | .DeleteAll container path => (container, path)
  | .Get container path _ => (container, path)
  | .GetAll container path => (container, path)
  | .Peek container path => (container, path)
  | .Set container path _ _ => (container, path)

/-- Recognises the calls that write into a children map: `Set` and `Delete`. -/
def RefOp.writesChildren {N : Type} : RefOp N → Bool
  | .Set _ _ _ _ => true
  | .Delete _ _ _ => true
  | _ => false

/-- The state after one call at clock reading `now`; `none` is a panic. -/
def RefCache.step {N : Type} (cfg : Config) (now : Int) (c : RefCache N) :
    RefOp N → Option (RefCache N)
  | .AddAll container path node nodes => some (c.AddAll cfg now container path node nodes)
  | .Delete container path name => some (c.Delete container path name)
  | .DeleteAll container path => c.DeleteAll container path
  | .Get _ _ _ => some c
  | .GetAll container path => some (c.GetAll cfg now container path).1
  | .Peek _ _ => some c
  | .Set container path name node => c.Set container path name node

/-- The map value held by the entry of `(container, path)`: nil when there is
no entry. -/
def RefCache.mapAt {N : Type} (c : RefCache N) (container path : String) : MapRef :=
  match mapGet c.content (Cache.key container path) with
  | none => none
  | some v => v.nodes

/-- A heap whose map object at address 0 is `{"a": A}` and whose other map
objects are empty. -/
def oneMapHeap : MapHeap String := fun r => if r = 0 then [("a", some "A")] else []

/-- The cache after `AddAll("c", "p", P, m)` and `AddAll("c", "q", Q, m)` with one
and the same map `m = {"a": A}`, unlimited budget and access. -/
def sharedMapState : RefCache String :=
  ((NewRefCache oneMapHeap).AddAll cfgUnlimited 0 "c" "p" (some "P") (some 0)).AddAll
    cfgUnlimited 0 "c" "q" (some "Q") (some 0)

/-- The cache after `AddAll("c", "p", P, m)` and `AddAll("c", "q", Q, m2)` with two
different map objects, unlimited budget and access. -/
def separateMapState : RefCache String :=
  ((NewRefCache oneMapHeap).AddAll cfgUnlimited 0 "c" "p" (some "P") (some 0)).AddAll
    cfgUnlimited 0 "c" "q" (some "Q") (some 1)


/-! ## Map lemmas -/

theorem mapGet_mapSet_self {V : Type} (m : GoMap V) (k : String) (v : V) :
    mapGet (mapSet m k v) k = some v := by
  induction m with
  | nil => simp [mapSet, mapGet]
  | cons e m ih =>
    obtain ⟨k', v'⟩ := e
    by_cases h : k' = k
    · simp [mapSet, mapGet, h]
    · simp [mapSet, mapGet, h, ih]

theorem mapGet_mapSet_ne {V : Type} (m : GoMap V) (k k2 : String) (v : V) (h : k ≠ k2) :
    mapGet (mapSet m k v) k2 = mapGet m k2 := by
  induction m with
  | nil => simp [mapSet, mapGet, h]
  | cons e m ih =>
    obtain ⟨k', v'⟩ := e
    by_cases h1 : k' = k
    · subst h1
      simp [mapSet, mapGet, h]
    · by_cases h2 : k' = k2
      · subst h2
        simp [mapSet, mapGet, h1]
      · simp [mapSet, mapGet, h1, h2, ih]

theorem mapGet_mapDelete_self {V : Type} (m : GoMap V) (k : String) :
    mapGet (mapDelete m k) k = none := by
  induction m with
  | nil => simp [mapDelete, mapGet]
  | cons e m ih =>
    obtain ⟨k', v'⟩ := e
    by_cases h : k' = k
    · simpa [mapDelete, List.filter_cons, h] using ih
    · simpa [mapDelete, List.filter_cons, h, mapGet] using ih

theorem mapGet_mapDelete_ne {V : Type} (m : GoMap V) (k k2 : String) (h : k ≠ k2) :
    mapGet (mapDelete m k) k2 = mapGet m k2 := by
  induction m with
  | nil => simp [mapDelete, mapGet]
  | cons e m ih =>
    obtain ⟨k', v'⟩ := e
    by_cases h1 : k' = k
    · subst h1
      simpa [mapDelete, List.filter_cons, mapGet, h] using ih
    · by_cases h2 : k' = k2
      · subst h2
        simp [mapDelete, List.filter_cons, mapGet, h1]
      · simpa [mapDelete, List.filter_cons, mapGet, h1, h2] using ih

theorem mapGet_eq_none_iff {V : Type} (m : GoMap V) (k : String) :
    mapGet m k = none ↔ k ∉ m.map Prod.fst := by
  induction m with
  | nil => simp [mapGet]
  | cons e m ih =>
    obtain ⟨k', v'⟩ := e
    by_cases h : k' = k
    · simp [mapGet, h]
    · simp only [mapGet, h, if_false, ih, List.map_cons, List.mem_cons, not_or]
      constructor
      · intro hm
        exact ⟨fun hk => h hk.symm, hm⟩
      · intro hm
        exact hm.2

theorem mapDelete_of_absent {V : Type} (m : GoMap V) (k : String) (h : mapGet m k = none) :
    mapDelete m k = m := by
  induction m with
  | nil => rfl
  | cons e m ih =>
    obtain ⟨k', v'⟩ := e
    by_cases h1 : k' = k
    · simp [mapGet, h1] at h
    · simp only [mapGet, h1, if_false] at h
      have := ih h
      simp only [mapDelete] at this ⊢
      rw [List.filter_cons]
      simp only [ne_eq, h1, not_false_eq_true, decide_True, if_true, this]

theorem keys_mapSet_of_present {V : Type} (m : GoMap V) (k : String) (v w : V)
    (h : mapGet m k = some w) : (mapSet m k v).map Prod.fst = m.map Prod.fst := by
  induction m with
  | nil => simp [mapGet] at h
  | cons e m ih =>
    obtain ⟨k', v'⟩ := e
    by_cases h1 : k' = k
    · simp [mapSet, h1]
    · simp only [mapGet, h1, if_false] at h
      simp [mapSet, h1, ih h]

theorem keys_mapSet_of_absent {V : Type} (m : GoMap V) (k : String) (v : V)
    (h : mapGet m k = none) : (mapSet m k v).map Prod.fst = m.map Prod.fst ++ [k] := by
  induction m with
  | nil => simp [mapSet]
  | cons e m ih =>
    obtain ⟨k', v'⟩ := e
    by_cases h1 : k' = k
    · simp [mapGet, h1] at h
    · simp only [mapGet, h1, if_false] at h
      simp [mapSet, h1, ih h]

theorem WF_mapSet {V : Type} (m : GoMap V) (k : String) (v : V) (h : GoMap.WF m) :
    GoMap.WF (mapSet m k v) := by
  unfold GoMap.WF at *
  cases hg : mapGet m k with
  | none =>
    rw [keys_mapSet_of_absent m k v hg]
    have hk := (mapGet_eq_none_iff m k).1 hg
    exact List.Nodup.append h (List.nodup_singleton k) (by
      intro a ha hb
      simp at hb
      subst hb
      exact hk ha)
  | some w =>
    rw [keys_mapSet_of_present m k v w hg]
    exact h

theorem WF_mapDelete {V : Type} (m : GoMap V) (k : String) (h : GoMap.WF m) :
    GoMap.WF (mapDelete m k) := by
  unfold GoMap.WF at *
  unfold mapDelete
  exact (h.sublist ((List.filter_sublist m).map Prod.fst))

/-! ## Keys -/

theorem list_split_unique {α : Type} (a : α) :
    ∀ (l1 l2 r1 r2 : List α), a ∉ l1 → a ∉ l2 → l1 ++ a :: r1 = l2 ++ a :: r2 →
      l1 = l2 ∧ r1 = r2
  | [], [], r1, r2, _, _, h => by simpa using h
  | [], y :: l2, r1, r2, _, h2, h => by
    simp only [List.nil_append, List.cons_append, List.cons.injEq] at h
    exact absurd (by simp [h.1]) h2
  | x :: l1, [], r1, r2, h1, _, h => by
    simp only [List.nil_append, List.cons_append, List.cons.injEq] at h
    exact absurd (by simp [h.1]) h1
  | x :: l1, y :: l2, r1, r2, h1, h2, h => by
    simp only [List.cons_append, List.cons.injEq] at h
    have ih := list_split_unique a l1 l2 r1 r2
      (fun hm => h1 (List.mem_cons_of_mem _ hm)) (fun hm => h2 (List.mem_cons_of_mem _ hm)) h.2
    exact ⟨by rw [h.1, ih.1], ih.2⟩

theorem key_data (container path : String) :
    (Cache.key container path).data = container.data ++ ':' :: path.data := by
  simp [Cache.key, String.data_append]

theorem key_inj_of_no_colon (c1 p1 c2 p2 : String) (h1 : ':' ∉ c1.data) (h2 : ':' ∉ c2.data)
    (h : Cache.key c1 p1 = Cache.key c2 p2) : c1 = c2 ∧ p1 = p2 := by
  have hd : (Cache.key c1 p1).data = (Cache.key c2 p2).data := by rw [h]
  rw [key_data, key_data] at hd
  have := list_split_unique ':' c1.data c2.data p1.data p2.data h1 h2 hd
  exact ⟨String.ext this.1, String.ext this.2⟩

/-! ## What each operation does to the binding of a key -/

theorem AddAll_entry {N : Type} (cfg : Config) (now : Int) (c : Cache N) (container path : String)
    (node : Option N) (nodes : Option (GoMap (Option N))) :
    mapGet (c.AddAll cfg now container path node nodes).content (Cache.key container path) =
      some { date := now, accessCount := 0,
             temporary := decide ((¬ (cfg.CacheMaxEntries < 0) ∧
                addU64 c.nodeCount (nodesLen nodes) ≥ toUint64 cfg.CacheMaxEntries) ∨
                cfg.CacheMaxAccess = 0),
             node := node, nodes := nodes } := by
  unfold Cache.AddAll
  split_ifs with h
  · rw [mapGet_mapSet_self, decide_eq_true h]
  · rw [mapGet_mapSet_self, decide_eq_false h]

theorem AddAll_nodeCount_of_temporary {N : Type} (cfg : Config) (now : Int) (c : Cache N)
    (container path : String) (node : Option N) (nodes : Option (GoMap (Option N)))
    (h : (¬ (cfg.CacheMaxEntries < 0) ∧
        addU64 c.nodeCount (nodesLen nodes) ≥ toUint64 cfg.CacheMaxEntries) ∨
        cfg.CacheMaxAccess = 0) :
    (c.AddAll cfg now container path node nodes).nodeCount = c.nodeCount := by
  unfold Cache.AddAll
  rw [if_pos h]

theorem AddAll_nodeCount_of_permanent {N : Type} (cfg : Config) (now : Int) (c : Cache N)
    (container path : String) (node : Option N) (nodes : Option (GoMap (Option N)))
    (h : ¬ ((¬ (cfg.CacheMaxEntries < 0) ∧
        addU64 c.nodeCount (nodesLen nodes) ≥ toUint64 cfg.CacheMaxEntries) ∨
        cfg.CacheMaxAccess = 0)) :
    (c.AddAll cfg now container path node nodes).nodeCount =
      addU64 c.nodeCount (nodesLen nodes) := by
  unfold Cache.AddAll
  rw [if_neg h]

theorem AddAll_frame {N : Type} (cfg : Config) (now : Int) (c : Cache N) (container path : String)
    (node : Option N) (nodes : Option (GoMap (Option N))) (k : String)
    (hk : Cache.key container path ≠ k) :
    mapGet (c.AddAll cfg now container path node nodes).content k = mapGet c.content k := by
  unfold Cache.AddAll
  split_ifs <;> simp [mapGet_mapSet_ne _ _ _ _ hk]

theorem Delete_frame {N : Type} (c : Cache N) (container path name k : String)
    (hk : Cache.key container path ≠ k) :
    mapGet (c.Delete container path name).content k = mapGet c.content k := by
  unfold Cache.Delete
  split
  · rfl
  · simp [mapGet_mapSet_ne _ _ _ _ hk]

theorem deleteAllBody_frame {N : Type} (c : Cache N) (container path k : String)
    (hk : Cache.key container path ≠ k) :
    mapGet (c.deleteAllBody container path).content k = mapGet c.content k := by
  unfold Cache.deleteAllBody
  split
  · split_ifs
    · simp [mapGet_mapDelete_ne _ _ _ hk]
    · rfl
  · rfl

theorem deleteAll_unlocked {N : Type} (c : Cache N) (container path : String) :
    c.deleteAll container path false = some (c.deleteAllBody container path) := by
  unfold Cache.deleteAll
  split
  · contradiction
  · rfl

theorem DeleteAll_of_present {N : Type} (c : Cache N) (container path : String) (v : CacheValue N)
    (h : mapGet c.content (Cache.key container path) = some v) :
    c.DeleteAll container path = some (c.deleteAllBody container path) := by
  unfold Cache.DeleteAll Cache.deleteAll
  split
  · rename_i h2
    rw [h] at h2
    cases h2
  · rfl

theorem DeleteAll_of_absent {N : Type} (c : Cache N) (container path : String)
    (h : mapGet c.content (Cache.key container path) = none) :
    c.DeleteAll container path = none := by
  unfold Cache.DeleteAll Cache.deleteAll
  split
  · rfl
  · rename_i h2
    exact absurd h (h2 rfl)

theorem DeleteAll_eq_some {N : Type} (c c' : Cache N) (container path : String)
    (h : c.DeleteAll container path = some c') : c' = c.deleteAllBody container path := by
  unfold Cache.DeleteAll Cache.deleteAll at h
  split at h
  · cases h
  · simpa using h.symm

theorem GetAll_frame {N : Type} (cfg : Config) (now : Int) (c : Cache N)
    (container path k : String) (hk : Cache.key container path ≠ k) :
    mapGet (c.GetAll cfg now container path).1.content k = mapGet c.content k := by
  unfold Cache.GetAll
  split
  · rfl
  · simp only
    split_ifs
    · rw [deleteAllBody_frame _ _ _ _ hk]
      simp [mapGet_mapSet_ne _ _ _ _ hk]
    · rw [deleteAllBody_frame _ _ _ _ hk]
      simp [mapGet_mapSet_ne _ _ _ _ hk]
    · simp [mapGet_mapSet_ne _ _ _ _ hk]

theorem Set_frame {N : Type} (c c' : Cache N) (container path name k : String) (node : Option N)
    (hk : Cache.key container path ≠ k) (h : c.Set container path name node = some c') :
    mapGet c'.content k = mapGet c.content k := by
  unfold Cache.Set at h
  split at h
  · cases h
    rfl
  · split at h
    · cases h
    · cases h
      simp [mapGet_mapSet_ne _ _ _ _ hk]

/-- A call that completes leaves the binding of every key it does not address
untouched. -/
theorem step_frame {N : Type} (cfg : Config) (now : Int) (c c' : Cache N) (op : Op N) (r : Ret N)
    (k : String) (hk : op.key ≠ k) (h : c.step cfg now op = some (c', r)) :
    mapGet c'.content k = mapGet c.content k := by
  cases op with
  | AddAll container path node nodes =>
    simp only [Cache.step, Option.some.injEq, Prod.mk.injEq] at h
    rw [← h.1]
    exact AddAll_frame cfg now c container path node nodes k hk
  | Delete container path name =>
    simp only [Cache.step, Option.some.injEq, Prod.mk.injEq] at h
    rw [← h.1]
    exact Delete_frame c container path name k hk
  | DeleteAll container path =>
    simp only [Cache.step, Option.map_eq_some', Prod.mk.injEq] at h
    obtain ⟨c2, h2, h3, _⟩ := h
    rw [← h3, DeleteAll_eq_some c c2 container path h2]
    exact deleteAllBody_frame c container path k hk
  | Get container path name =>
    simp only [Cache.step, Option.some.injEq, Prod.mk.injEq] at h
    rw [← h.1]
  | GetAll container path =>
    simp only [Cache.step, Option.some.injEq, Prod.mk.injEq] at h
    rw [← h.1]
    exact GetAll_frame cfg now c container path k hk
  | Peek container path =>
    simp only [Cache.step, Option.some.injEq, Prod.mk.injEq] at h
    rw [← h.1]
  | Set container path name node =>
    simp only [Cache.step, Option.map_eq_some', Prod.mk.injEq] at h
    obtain ⟨c2, h2, h3, _⟩ := h
    rw [← h3]
    exact Set_frame c c2 container path name k node hk h2

/-! ## Reads depend on the binding of their key only -/

theorem Get_congr {N : Type} (c c' : Cache N) (container path name : String)
    (h : mapGet c'.content (Cache.key container path) = mapGet c.content (Cache.key container path)) :
    c'.Get container path name = c.Get container path name := by
  unfold Cache.Get
  rw [h]

theorem Peek_congr {N : Type} (cfg : Config) (now : Int) (c c' : Cache N) (container path : String)
    (h : mapGet c'.content (Cache.key container path) = mapGet c.content (Cache.key container path)) :
    c'.Peek cfg now container path = c.Peek cfg now container path := by
  unfold Cache.Peek
  rw [h]

theorem GetAll_result_congr {N : Type} (cfg : Config) (now : Int) (c c' : Cache N)
    (container path : String)
    (h : mapGet c'.content (Cache.key container path) = mapGet c.content (Cache.key container path)) :
    (c'.GetAll cfg now container path).2 = (c.GetAll cfg now container path).2 := by
  unfold Cache.GetAll
  rw [h]
  split
  · rfl
  · simp only
    split_ifs <;> rfl

/-! ## Machine arithmetic -/

theorem toUint64_natCast (n : Nat) (h : n < 2 ^ 64) : toUint64 (n : Int) = n := by
  unfold toUint64
  have h2 : ((n : Int) % 2 ^ 64) = (n : Int) := Int.emod_eq_of_lt (by omega) (by exact_mod_cast h)
  rw [h2]
  exact Int.toNat_natCast n

theorem toUint64_of_nonneg (x : Int) (h0 : 0 ≤ x) (h : x < 2 ^ 64) : (toUint64 x : Int) = x := by
  unfold toUint64
  rw [Int.emod_eq_of_lt h0 h]
  exact Int.toNat_of_nonneg h0

theorem addU64_small (a b : Nat) (h : a + b < 2 ^ 64) : addU64 a b = a + b := by
  unfold addU64
  exact Nat.mod_eq_of_lt h

theorem subU64_small (a b : Nat) (ha : a < 2 ^ 64) (h : b ≤ a) : subU64 a b = a - b := by
  unfold subU64
  have hb : b % 2 ^ 64 = b := Nat.mod_eq_of_lt (by omega)
  rw [hb]
  omega

/-! ## One `GetAll` on a key -/

theorem GetAll_absent {N : Type} (cfg : Config) (now : Int) (c : Cache N) (container path : String)
    (h : mapGet c.content (Cache.key container path) = none) :
    c.GetAll cfg now container path = (c, (none, none)) := by
  unfold Cache.GetAll
  rw [h]

theorem deleteAllBody_of_permanent {N : Type} (c : Cache N) (container path : String)
    (v : CacheValue N) (h : mapGet c.content (Cache.key container path) = some v)
    (ht : v.temporary = false) :
    c.deleteAllBody container path =
      { content := mapDelete c.content (Cache.key container path),
        nodeCount := subU64 c.nodeCount (nodesLen v.nodes) } := by
  unfold Cache.deleteAllBody
  rw [h]
  simp [ht]

theorem deleteAllBody_of_temporary {N : Type} (c : Cache N) (container path : String)
    (v : CacheValue N) (h : mapGet c.content (Cache.key container path) = some v)
    (ht : v.temporary = true) :
    c.deleteAllBody container path = c := by
  unfold Cache.deleteAllBody
  rw [h]
  simp [ht]

theorem deleteAllBody_of_absent {N : Type} (c : Cache N) (container path : String)
    (h : mapGet c.content (Cache.key container path) = none) :
    c.deleteAllBody container path = c := by
  unfold Cache.deleteAllBody
  rw [h]

/-- A read of a live non-temporary entry below the ceiling keeps the entry,
with its counter advanced. -/
theorem GetAll_live_keep {N : Type} (cfg : Config) (now : Int) (c : Cache N)
    (container path : String) (v : CacheValue N)
    (h : mapGet c.content (Cache.key container path) = some v) (ht : v.temporary = false)
    (hnow : now ≤ v.date + cfg.CacheTimeout)
    (hc : ¬ (¬ (cfg.CacheMaxAccess < 0) ∧ addU64 v.accessCount 1 = toUint64 cfg.CacheMaxAccess)) :
    c.GetAll cfg now container path =
      ({ c with content := mapSet c.content (Cache.key container path) v.touch },
        (v.node, v.nodes)) := by
  unfold Cache.GetAll
  rw [h]
  simp only [CacheValue.touch]
  rw [if_neg (by omega), if_neg (by
    rintro (h1 | h1)
    · rw [ht] at h1
      cases h1
    · exact hc h1)]

/-- A read of a live non-temporary entry that reaches the ceiling returns the
listing and removes the entry. -/
theorem GetAll_live_evict {N : Type} (cfg : Config) (now : Int) (c : Cache N)
    (container path : String) (v : CacheValue N)
    (h : mapGet c.content (Cache.key container path) = some v) (ht : v.temporary = false)
    (hnow : now ≤ v.date + cfg.CacheTimeout)
    (hc : ¬ (cfg.CacheMaxAccess < 0) ∧ addU64 v.accessCount 1 = toUint64 cfg.CacheMaxAccess) :
    c.GetAll cfg now container path =
      ({ content := mapDelete (mapSet c.content (Cache.key container path) v.touch)
            (Cache.key container path),
         nodeCount := subU64 c.nodeCount (nodesLen v.nodes) },
        (v.node, v.nodes)) := by
  unfold Cache.GetAll
  rw [h]
  simp only [CacheValue.touch]
  rw [if_neg (by omega), if_pos (Or.inr hc)]
  rw [deleteAllBody_of_permanent _ container path
    { v with accessCount := addU64 v.accessCount 1 } (mapGet_mapSet_self _ _ _) ht]

/-- A read of an expired non-temporary entry returns absent and removes the entry. -/
theorem GetAll_expired_permanent {N : Type} (cfg : Config) (now : Int) (c : Cache N)
    (container path : String) (v : CacheValue N)
    (h : mapGet c.content (Cache.key container path) = some v) (ht : v.temporary = false)
    (hnow : now > v.date + cfg.CacheTimeout) :
    c.GetAll cfg now container path =
      ({ content := mapDelete (mapSet c.content (Cache.key container path) v.touch)
            (Cache.key container path),
         nodeCount := subU64 c.nodeCount (nodesLen v.nodes) },
        (none, none)) := by
  unfold Cache.GetAll
  rw [h]
  simp only [CacheValue.touch]
  rw [if_pos hnow]
  rw [deleteAllBody_of_permanent _ container path
    { v with accessCount := addU64 v.accessCount 1 } (mapGet_mapSet_self _ _ _) ht]

/-- A read of a temporary entry never removes it: expired or not, the entry
stays bound, with its counter advanced. -/
theorem GetAll_temporary_keeps_entry {N : Type} (cfg : Config) (now : Int) (c : Cache N)
    (container path : String) (v : CacheValue N)
    (h : mapGet c.content (Cache.key container path) = some v) (ht : v.temporary = true) :
    c.GetAll cfg now container path =
      ({ c with content := mapSet c.content (Cache.key container path) v.touch },
        if now > v.date + cfg.CacheTimeout then (none, none) else (v.node, v.nodes)) := by
  unfold Cache.GetAll
  rw [h]
  simp only [CacheValue.touch]
  have hb := deleteAllBody_of_temporary
    (Cache.mk (mapSet c.content (Cache.key container path)
      (CacheValue.mk v.date (addU64 v.accessCount 1) v.temporary v.node v.nodes)) c.nodeCount)
    container path
    (CacheValue.mk v.date (addU64 v.accessCount 1) v.temporary v.node v.nodes)
    (mapGet_mapSet_self _ _ _) ht
  by_cases hnow : now > v.date + cfg.CacheTimeout
  · rw [if_pos hnow, if_pos hnow, hb]
  · rw [if_neg hnow, if_neg hnow, if_pos (Or.inl ht), hb]

/-! ## `Set` by cases -/

theorem Set_of_absent {N : Type} (c : Cache N) (container path name : String) (node : Option N)
    (h : mapGet c.content (Cache.key container path) = none) :
    c.Set container path name node = some c := by
  simp only [Cache.Set, h]

theorem Set_of_nil_children {N : Type} (c : Cache N) (container path name : String)
    (node : Option N) (v : CacheValue N)
    (h : mapGet c.content (Cache.key container path) = some v) (hn : v.nodes = none) :
    c.Set container path name node = none := by
  simp only [Cache.Set, h, hn]

theorem Set_of_children {N : Type} (c : Cache N) (container path name : String)
    (node : Option N) (v : CacheValue N) (m : GoMap (Option N))
    (h : mapGet c.content (Cache.key container path) = some v) (hn : v.nodes = some m) :
    c.Set container path name node =
      some (Cache.mk (mapSet c.content (Cache.key container path)
        (CacheValue.mk v.date v.accessCount v.temporary v.node (some (mapSet m name node))))
        c.nodeCount) := by
  simp only [Cache.Set, h, hn]

/-! ## Traces -/

theorem run_cons {N : Type} (cfg : Config) (c c' : Cache N) (now : Int) (op : Op N)
    (tr : List (Int × Op N)) (rets : List (Ret N))
    (h : c.run cfg ((now, op) :: tr) = some (c', rets)) :
    ∃ c1 r rs, c.step cfg now op = some (c1, r) ∧ c1.run cfg tr = some (c', rs) ∧ rets = r :: rs := by
  simp only [Cache.run] at h
  split at h
  · cases h
  · rename_i c1 r hs
    split at h
    · cases h
    · rename_i c2 rs hr
      simp only [Option.some.injEq, Prod.mk.injEq] at h
      exact ⟨c1, r, rs, hs, by rw [hr, h.1], h.2.symm⟩

theorem GetAll_key_congr {N : Type} (cfg : Config) (now : Int) (c : Cache N)
    (c2 p2 container path : String) (hk : Cache.key c2 p2 = Cache.key container path) :
    c.GetAll cfg now c2 p2 = c.GetAll cfg now container path := by
  unfold Cache.GetAll Cache.deleteAllBody
  rw [hk]

theorem step_GetAll_of_key {N : Type} (cfg : Config) (now : Int) (c : Cache N) (op : Op N)
    (container path : String) (hk : op.key = Cache.key container path) (hg : op.isGetAll = true) :
    c.step cfg now op =
      some ((c.GetAll cfg now container path).1, Ret.listing (c.GetAll cfg now container path).2) := by
  cases op with
  | GetAll c2 p2 =>
    simp only [Op.key] at hk
    simp only [Cache.step, GetAll_key_congr cfg now c c2 p2 container path hk]
  | _ => simp [Op.isGetAll] at hg

/-- Reads of one key under an access ceiling `K`, interleaved with calls on
other keys: starting with `j` reads already counted, the reads return the
listing while the count stays within `K` and absent afterwards. -/
theorem ceiling_trace {N : Type} (cfg : Config) (K : Nat) (hK : cfg.CacheMaxAccess = (K : Int))
    (hK63 : K < 2 ^ 63) (container path : String) (t0 : Int) (node : Option N)
    (nodes : Option (GoMap (Option N))) :
    ∀ (tr : List (Int × Op N)) (c : Cache N) (j : Nat) (c' : Cache N) (rets : List (Ret N)),
      (if j < K then
          mapGet c.content (Cache.key container path) =
            some { date := t0, accessCount := j, temporary := false, node := node, nodes := nodes }
        else mapGet c.content (Cache.key container path) = none) →
      (∀ e ∈ tr, e.2.key = Cache.key container path →
        e.2.isGetAll = true ∧ e.1 ≤ t0 + cfg.CacheTimeout) →
      c.run cfg tr = some (c', rets) →
      retsAt (Cache.key container path) tr rets =
          List.replicate (min (retsAt (Cache.key container path) tr rets).length (K - j))
              (Ret.listing (node, nodes)) ++
            List.replicate ((retsAt (Cache.key container path) tr rets).length - (K - j))
              (Ret.listing (none, none)) ∧
        (if j + (retsAt (Cache.key container path) tr rets).length < K then
          mapGet c'.content (Cache.key container path) =
            some { date := t0, accessCount := j + (retsAt (Cache.key container path) tr rets).length,
                   temporary := false, node := node, nodes := nodes }
        else mapGet c'.content (Cache.key container path) = none) := by
  intro tr
  induction tr with
  | nil =>
    intro c j c' rets hinv _ hrun
    simp only [Cache.run, Option.some.injEq, Prod.mk.injEq] at hrun
    obtain ⟨rfl, rfl⟩ := hrun
    simpa [retsAt] using hinv
  | cons e tr ih =>
    intro c j c' rets hinv hops hrun
    obtain ⟨now, op⟩ := e
    obtain ⟨c1, r, rs, hstep, hrest, rfl⟩ := run_cons cfg c c' now op tr rets hrun
    have hops' : ∀ e ∈ tr, e.2.key = Cache.key container path →
        e.2.isGetAll = true ∧ e.1 ≤ t0 + cfg.CacheTimeout :=
      fun e he => hops e (List.mem_cons_of_mem _ he)
    by_cases hk : op.key = Cache.key container path
    · obtain ⟨hg, hnow⟩ := hops (now, op) (List.mem_cons_self _ _) hk
      rw [step_GetAll_of_key cfg now c op container path hk hg] at hstep
      simp only [Option.some.injEq, Prod.mk.injEq] at hstep
      obtain ⟨hc1, hr⟩ := hstep
      simp only [retsAt, hk, if_true, List.length_cons]
      by_cases hj : j < K
      · rw [if_pos hj] at hinv
        have hres : (c.GetAll cfg now container path).2 = (node, nodes) ∧
            (if j + 1 < K then
              mapGet (c.GetAll cfg now container path).1.content (Cache.key container path) =
                some { date := t0, accessCount := j + 1, temporary := false, node := node,
                       nodes := nodes }
            else mapGet (c.GetAll cfg now container path).1.content (Cache.key container path)
                  = none) := by
          have hadd : addU64 j 1 = j + 1 := addU64_small j 1 (by omega)
          have hto : toUint64 cfg.CacheMaxAccess = K := by
            rw [hK]
            exact toUint64_natCast K (by omega)
          by_cases hj1 : j + 1 < K
          · rw [GetAll_live_keep cfg now c container path _ hinv rfl hnow (by
              simp only [hadd, hto]
              omega)]
            rw [if_pos hj1]
            simp [mapGet_mapSet_self, CacheValue.touch, hadd]
          · rw [GetAll_live_evict cfg now c container path _ hinv rfl hnow (by
              simp only [hadd, hto]
              constructor
              · rw [hK]
                omega
              · omega)]
            rw [if_neg hj1]
            simp [mapGet_mapDelete_self]
        rw [hc1] at hres
        obtain ⟨ih1, ih2⟩ := ih c1 (j + 1) c' rs hres.2 hops' hrest
        constructor
        · rw [← hr, hres.1]
          have e1 : min ((retsAt (Cache.key container path) tr rs).length + 1) (K - j) =
              min (retsAt (Cache.key container path) tr rs).length (K - (j + 1)) + 1 := by omega
          have e2 : (retsAt (Cache.key container path) tr rs).length + 1 - (K - j) =
              (retsAt (Cache.key container path) tr rs).length - (K - (j + 1)) := by omega
          rw [e1, e2, List.replicate_succ, List.cons_append, ← ih1]
        · have e3 : j + ((retsAt (Cache.key container path) tr rs).length + 1) =
              j + 1 + (retsAt (Cache.key container path) tr rs).length := by omega
          rw [e3]
          exact ih2
      · rw [if_neg hj] at hinv
        rw [GetAll_absent cfg now c container path hinv] at hc1 hr
        simp only at hc1 hr
        subst hc1
        have hinv' : (if j + 1 < K then
              mapGet c.content (Cache.key container path) =
                some { date := t0, accessCount := j + 1, temporary := false, node := node,
                       nodes := nodes }
            else mapGet c.content (Cache.key container path) = none) := by
          rw [if_neg (by omega)]
          exact hinv
        obtain ⟨ih1, ih2⟩ := ih c (j + 1) c' rs hinv' hops' hrest
        constructor
        · rw [← hr]
          have e1 : min ((retsAt (Cache.key container path) tr rs).length + 1) (K - j) = 0 := by
            omega
          have e2 : (retsAt (Cache.key container path) tr rs).length + 1 - (K - j) =
              ((retsAt (Cache.key container path) tr rs).length - (K - (j + 1))) + 1 := by omega
          have e4 : min (retsAt (Cache.key container path) tr rs).length (K - (j + 1)) = 0 := by
            omega
          rw [e4] at ih1
          rw [e1, e2, List.replicate_succ]
          simp only [List.replicate_zero, List.nil_append] at ih1 ⊢
          rw [← ih1]
        · have e3 : j + ((retsAt (Cache.key container path) tr rs).length + 1) =
              j + 1 + (retsAt (Cache.key container path) tr rs).length := by omega
          rw [e3]
          exact ih2
    · have hfr := step_frame cfg now c c1 op r (Cache.key container path) hk hstep
      rw [← hfr] at hinv
      obtain ⟨ih1, ih2⟩ := ih c1 j c' rs hinv hops' hrest
      simp only [retsAt, hk, if_false]
      exact ⟨ih1, ih2⟩

/-! ## Budget accounting lemmas -/

theorem contentTotal_mapSet_absent {N : Type} (m : GoMap (CacheValue N)) (k : String)
    (e : CacheValue N) (h : mapGet m k = none) :
    contentTotal (mapSet m k e) = contentTotal m + e.share := by
  induction m with
  | nil => simp [mapSet, contentTotal]
  | cons x m ih =>
    obtain ⟨k', v'⟩ := x
    by_cases h1 : k' = k
    · simp [mapGet, h1] at h
    · simp only [mapGet, h1, if_false] at h
      have := ih h
      simp only [contentTotal, mapSet, h1, if_false, List.map_cons, List.sum_cons] at this ⊢
      omega

theorem contentTotal_mapSet_present {N : Type} (m : GoMap (CacheValue N)) (k : String)
    (e v : CacheValue N) (h : mapGet m k = some v) :
    contentTotal (mapSet m k e) + v.share = contentTotal m + e.share := by
  induction m with
  | nil => simp [mapGet] at h
  | cons x m ih =>
    obtain ⟨k', v'⟩ := x
    by_cases h1 : k' = k
    · simp only [mapGet, h1, if_true, Option.some.injEq] at h
      subst h
      simp only [contentTotal, mapSet, h1, if_true, List.map_cons, List.sum_cons]
      omega
    · simp only [mapGet, h1, if_false] at h
      have := ih h
      simp only [contentTotal, mapSet, h1, if_false, List.map_cons, List.sum_cons] at this ⊢
      omega

theorem contentTotal_mapDelete {N : Type} (m : GoMap (CacheValue N)) (k : String)
    (v : CacheValue N) (hwf : GoMap.WF m) (h : mapGet m k = some v) :
    contentTotal (mapDelete m k) + v.share = contentTotal m := by
  induction m with
  | nil => simp [mapGet] at h
  | cons x m ih =>
    obtain ⟨k', v'⟩ := x
    unfold GoMap.WF at hwf
    simp only [List.map_cons, List.nodup_cons] at hwf
    by_cases h1 : k' = k
    · simp only [mapGet, h1, if_true, Option.some.injEq] at h
      subst h
      subst h1
      have habs : mapGet m k' = none := (mapGet_eq_none_iff m k').2 hwf.1
      have hd := mapDelete_of_absent m k' habs
      simp only [mapDelete] at hd
      simp only [contentTotal, mapDelete, List.filter_cons, ne_eq, not_true_eq_false,
        decide_False, Bool.false_eq_true, if_false, List.map_cons, List.sum_cons, hd]
      omega
    · simp only [mapGet, h1, if_false] at h
      have := ih hwf.2 h
      simp only [contentTotal, mapDelete, List.filter_cons, ne_eq, h1, not_false_eq_true,
        decide_True, if_true, List.map_cons, List.sum_cons] at this ⊢
      omega

theorem share_touch {N : Type} (v : CacheValue N) : v.touch.share = v.share := rfl

theorem wrap_sub (t l : Nat) :
    subU64 ((t + l) % 2 ^ 64) l = t % 2 ^ 64 := by
  unfold subU64
  omega

theorem wrap_add (t l : Nat) :
    addU64 (t % 2 ^ 64) l = (t + l) % 2 ^ 64 := by
  unfold addU64
  omega

/-- The removal step of `deleteAll` keeps the node count equal to the tracked
total, modulo `2 ^ 64`. -/
theorem deleteAllBody_budget {N : Type} (c : Cache N) (container path : String)
    (hwf : GoMap.WF c.content) (hb : c.nodeCount = c.budgetTotal % 2 ^ 64) :
    GoMap.WF (c.deleteAllBody container path).content ∧
      (c.deleteAllBody container path).nodeCount =
        (c.deleteAllBody container path).budgetTotal % 2 ^ 64 := by
  cases hg : mapGet c.content (Cache.key container path) with
  | none =>
    rw [deleteAllBody_of_absent c container path hg]
    exact ⟨hwf, hb⟩
  | some v =>
    cases ht : v.temporary with
    | true =>
      rw [deleteAllBody_of_temporary c container path v hg ht]
      exact ⟨hwf, hb⟩
    | false =>
      rw [deleteAllBody_of_permanent c container path v hg ht]
      refine ⟨WF_mapDelete _ _ hwf, ?_⟩
      have ht2 := contentTotal_mapDelete c.content (Cache.key container path) v hwf hg
      have hs : v.share = nodesLen v.nodes := by simp [CacheValue.share, ht]
      simp only [Cache.budgetTotal] at hb ⊢
      rw [hb, ← ht2, hs]
      exact wrap_sub _ _

/-- Every tracked call that completes keeps the content map well formed and
the node count equal to the tracked total, modulo `2 ^ 64`. -/
theorem step_budget {N : Type} (cfg : Config) (now : Int) (c c' : Cache N) (op : Op N) (r : Ret N)
    (hwf : GoMap.WF c.content) (hb : c.nodeCount = c.budgetTotal % 2 ^ 64)
    (htr : op.tracked c) (h : c.step cfg now op = some (c', r)) :
    GoMap.WF c'.content ∧ c'.nodeCount = c'.budgetTotal % 2 ^ 64 := by
  cases op with
  | AddAll container path node nodes =>
    simp only [Cache.step, Option.some.injEq, Prod.mk.injEq] at h
    rw [← h.1]
    simp only [Op.tracked] at htr
    have hold : ∀ e : CacheValue N,
        contentTotal (mapSet c.content (Cache.key container path) e) =
          contentTotal c.content + e.share := by
      intro e
      cases hg : mapGet c.content (Cache.key container path) with
      | none => exact contentTotal_mapSet_absent _ _ _ hg
      | some v =>
        have h1 := contentTotal_mapSet_present c.content (Cache.key container path) e v hg
        have h2 : v.share = 0 := by simp [CacheValue.share, htr v hg]
        omega
    unfold Cache.AddAll
    simp only [Cache.budgetTotal] at hb ⊢
    split_ifs with hc
    · refine ⟨WF_mapSet _ _ _ hwf, ?_⟩
      simp only [hold]
      simpa [CacheValue.share] using hb
    · refine ⟨WF_mapSet _ _ _ hwf, ?_⟩
      simp only [hold]
      rw [hb]
      simpa [CacheValue.share] using wrap_add (contentTotal c.content) (nodesLen nodes)
  | Delete container path name =>
    simp only [Cache.step, Option.some.injEq, Prod.mk.injEq] at h
    rw [← h.1]
    simp only [Op.tracked] at htr
    unfold Cache.Delete
    cases hg : mapGet c.content (Cache.key container path) with
    | none => exact ⟨hwf, hb⟩
    | some v =>
      refine ⟨WF_mapSet _ _ _ hwf, ?_⟩
      have h1 := contentTotal_mapSet_present c.content (Cache.key container path)
        (CacheValue.mk v.date v.accessCount v.temporary v.node
          (v.nodes.map (fun m => mapDelete m name))) v hg
      have h2 : v.share = 0 := by simp [CacheValue.share, htr v hg]
      have h3 : (CacheValue.mk v.date v.accessCount v.temporary v.node
          (v.nodes.map (fun m => mapDelete m name))).share = 0 := by
        simp [CacheValue.share, htr v hg]
      simp only [Cache.budgetTotal] at hb ⊢
      rw [hb]
      congr 1
      omega
  | DeleteAll container path =>
    simp only [Cache.step, Option.map_eq_some', Prod.mk.injEq] at h
    obtain ⟨c2, h2, h3, _⟩ := h
    rw [← h3, DeleteAll_eq_some c c2 container path h2]
    exact deleteAllBody_budget c container path hwf hb
  | Get container path name =>
    simp only [Cache.step, Option.some.injEq, Prod.mk.injEq] at h
    rw [← h.1]
    exact ⟨hwf, hb⟩
  | GetAll container path =>
    simp only [Cache.step, Option.some.injEq, Prod.mk.injEq] at h
    rw [← h.1]
    unfold Cache.GetAll
    cases hg : mapGet c.content (Cache.key container path) with
    | none => exact ⟨hwf, hb⟩
    | some v =>
      have h1 := contentTotal_mapSet_present c.content (Cache.key container path) v.touch v hg
      rw [share_touch] at h1
      have hb1 : (Cache.mk (mapSet c.content (Cache.key container path) v.touch)
          c.nodeCount).nodeCount =
          (Cache.mk (mapSet c.content (Cache.key container path) v.touch)
            c.nodeCount).budgetTotal % 2 ^ 64 := by
        simp only [Cache.budgetTotal] at hb ⊢
        rw [hb]
        congr 1
        omega
      have hwf1 : GoMap.WF (Cache.mk (mapSet c.content (Cache.key container path) v.touch)
          c.nodeCount).content := WF_mapSet _ _ _ hwf
      simp only
      split_ifs
      · exact deleteAllBody_budget _ container path hwf1 hb1
      · exact deleteAllBody_budget _ container path hwf1 hb1
      · exact ⟨hwf1, hb1⟩
  | Peek container path =>
    simp only [Cache.step, Option.some.injEq, Prod.mk.injEq] at h
    rw [← h.1]
    exact ⟨hwf, hb⟩
  | Set container path name node =>
    simp only [Cache.step, Option.map_eq_some', Prod.mk.injEq] at h
    obtain ⟨c2, h2, h3, _⟩ := h
    rw [← h3]
    simp only [Op.tracked] at htr
    cases hg : mapGet c.content (Cache.key container path) with
    | none =>
      rw [Set_of_absent c container path name node hg] at h2
      simp only [Option.some.injEq] at h2
      rw [← h2]
      exact ⟨hwf, hb⟩
    | some v =>
      cases hn : v.nodes with
      | none =>
        rw [Set_of_nil_children c container path name node v hg hn] at h2
        cases h2
      | some m =>
        rw [Set_of_children c container path name node v m hg hn] at h2
        simp only [Option.some.injEq] at h2
        rw [← h2]
        refine ⟨WF_mapSet _ _ _ hwf, ?_⟩
        have h1 := contentTotal_mapSet_present c.content (Cache.key container path)
          (CacheValue.mk v.date v.accessCount v.temporary v.node
            (some (mapSet m name node))) v hg
        have h4 : v.share = 0 := by simp [CacheValue.share, htr v hg]
        have h5 : (CacheValue.mk v.date v.accessCount v.temporary v.node
            (some (mapSet m name node))).share = 0 := by
          simp [CacheValue.share, htr v hg]
        simp only [Cache.budgetTotal] at hb ⊢
        rw [hb]
        congr 1
        omega

theorem tracked_budget {N : Type} (cfg : Config) (c : Cache N) (h : TrackedReach cfg c) :
    GoMap.WF c.content ∧ c.nodeCount = c.budgetTotal % 2 ^ 64 := by
  induction h with
  | init => exact ⟨by simp [GoMap.WF, NewCache], by simp [NewCache, Cache.budgetTotal, contentTotal]⟩
  | call _ htr hstep ih => exact step_budget cfg _ _ _ _ _ ih.1 ih.2 htr hstep

/-! ## Claims -/

/-- C1 (the code at the failing input): with the access ceiling at 0, `AddAll`
stores a temporary entry and the first `GetAll` within the TTL returns the
stored listing; the second `GetAll` on the same key returns that listing once
more instead of absent, and the entry is still in the cache after both reads. -/
theorem C1_temporary_entry_read_twice :
    (mapGet tempState.content (Cache.key "c" "p")).map (fun v => v.temporary) = some true ∧
    (tempState.GetAll cfgDisabled 1 "c" "p").2 = (some "P", kidA) ∧
    ((tempState.GetAll cfgDisabled 1 "c" "p").1.GetAll cfgDisabled 2 "c" "p").2
      = (some "P", kidA) ∧
    (mapGet ((tempState.GetAll cfgDisabled 1 "c" "p").1.GetAll cfgDisabled 2 "c" "p").1.content
      (Cache.key "c" "p")).isSome = true := by
  decide

/-- C2 (the code at the failing input): a temporary entry created at time 0
with TTL 10 is read by `GetAll` at time 11.  The read returns absent, but the
entry stays in the cache: its key is still bound and `Get` still returns its
child, and a further `GetAll` finds the expired entry present again. -/
theorem C2_expired_temporary_entry_stays :
    (tempState.GetAll cfgDisabled 11 "c" "p").2 = (none, none) ∧
    (mapGet (tempState.GetAll cfgDisabled 11 "c" "p").1.content (Cache.key "c" "p")).isSome
      = true ∧
    (tempState.GetAll cfgDisabled 11 "c" "p").1.Get "c" "p" "a" = some "A" ∧
    (mapGet ((tempState.GetAll cfgDisabled 11 "c" "p").1.GetAll cfgDisabled 12 "c" "p").1.content
      (Cache.key "c" "p")).map (fun v => v.accessCount) = some 2 := by
  decide

/-- C3: under an access ceiling `K` with `1 ≤ K` (an int64, so `K < 2 ^ 63`),
take the non-temporary entry that `AddAll` stores for a key at time `t0`, and
any run of calls after it in which the only calls addressing that key are
`GetAll` calls made within the TTL (calls on other keys may be interleaved).
Then the reads of the key return the stored (parent, children) for the first
`K` of them and absent from the `K + 1`-th on, and once `K` reads have been
made the key is no longer bound in the cache. -/
theorem C3_access_ceiling {N : Type} (cfg : Config) (K : Nat)
    (hK : cfg.CacheMaxAccess = (K : Int)) (h1 : 1 ≤ K) (hK63 : K < 2 ^ 63)
    (c0 : Cache N) (t0 : Int) (container path : String) (node : Option N)
    (nodes : Option (GoMap (Option N)))
    (hnt : (mapGet (c0.AddAll cfg t0 container path node nodes).content
      (Cache.key container path)).map (fun v => v.temporary) = some false)
    (tr : List (Int × Op N)) (c' : Cache N) (rets : List (Ret N))
    (hops : ∀ e ∈ tr, e.2.key = Cache.key container path →
      e.2.isGetAll = true ∧ e.1 ≤ t0 + cfg.CacheTimeout)
    (hrun : (c0.AddAll cfg t0 container path node nodes).run cfg tr = some (c', rets)) :
    retsAt (Cache.key container path) tr rets =
        List.replicate (min (retsAt (Cache.key container path) tr rets).length K)
            (Ret.listing (node, nodes)) ++
          List.replicate ((retsAt (Cache.key container path) tr rets).length - K)
            (Ret.listing (none, none)) ∧
      (K ≤ (retsAt (Cache.key container path) tr rets).length →
        mapGet c'.content (Cache.key container path) = none) := by
  have hent := AddAll_entry cfg t0 c0 container path node nodes
  rw [hent] at hnt
  simp only [Option.map_some', Option.some.injEq] at hnt
  rw [hnt] at hent
  have hinv : (if 0 < K then
        mapGet (c0.AddAll cfg t0 container path node nodes).content (Cache.key container path) =
          some { date := t0, accessCount := 0, temporary := false, node := node, nodes := nodes }
      else mapGet (c0.AddAll cfg t0 container path node nodes).content
            (Cache.key container path) = none) := by
    rw [if_pos (by omega)]
    exact hent
  obtain ⟨r1, r2⟩ := ceiling_trace cfg K hK hK63 container path t0 node nodes tr _ 0 c' rets
    hinv hops hrun
  simp only [Nat.sub_zero, Nat.zero_add] at r1 r2
  refine ⟨r1, fun hlen => ?_⟩
  rw [if_neg (by omega)] at r2
  exact r2

/-- C3 at a concrete input: ceiling 2, three reads of the key with a lookup on
another key in between return the listing twice and then absent, and the key
is unbound at the end. -/
theorem C3_access_ceiling_witness :
    ceilingState.run cfgCeiling2 ceilingTrace = some (NewCache String, ceilingRets) ∧
    retsAt (Cache.key "c" "p") ceilingTrace ceilingRets =
      [Ret.listing (some "P", kidA), Ret.listing (some "P", kidA), Ret.listing (none, none)] ∧
    mapGet (NewCache String).content (Cache.key "c" "p") = none :=
  have h := C3_access_ceiling cfgCeiling2 2 rfl (by decide) (by decide) (NewCache String) 0
    "c" "p" (some "P") kidA (by decide) ceilingTrace (NewCache String) ceilingRets
    (by decide) (by decide)
  ⟨by decide, h.1.trans (by decide), h.2 (by decide)⟩

/-- C4: when `AddAll` at time `t0` stores a non-temporary entry and `GetAll` on
the same key runs at a time not after `t0 + TTL`, the entry has access counter
0 before the read, the read returns exactly (parent, children), and the read
sets the counter of that entry to 1: the cache afterwards is the one holding
the entry with counter 1, from which the deferred removal has taken the entry
out again exactly when the access ceiling is 1. -/
theorem C4_AddAll_GetAll_round_trip {N : Type} (cfg : Config) (hwf : cfg.wf) (c0 : Cache N)
    (t0 now : Int) (container path : String) (node : Option N)
    (nodes : Option (GoMap (Option N)))
    (hnt : (mapGet (c0.AddAll cfg t0 container path node nodes).content
      (Cache.key container path)).map (fun v => v.temporary) = some false)
    (hnow : now ≤ t0 + cfg.CacheTimeout) :
    mapGet (c0.AddAll cfg t0 container path node nodes).content (Cache.key container path) =
        some { date := t0, accessCount := 0, temporary := false, node := node, nodes := nodes } ∧
      ((c0.AddAll cfg t0 container path node nodes).GetAll cfg now container path).2 =
        (node, nodes) ∧
      ((c0.AddAll cfg t0 container path node nodes).GetAll cfg now container path).1 =
        (if cfg.CacheMaxAccess = 1 then
          Cache.deleteAllBody
            { content := mapSet (c0.AddAll cfg t0 container path node nodes).content
                (Cache.key container path)
                { date := t0, accessCount := 1, temporary := false, node := node, nodes := nodes },
              nodeCount := (c0.AddAll cfg t0 container path node nodes).nodeCount }
            container path
        else
          { content := mapSet (c0.AddAll cfg t0 container path node nodes).content
              (Cache.key container path)
              { date := t0, accessCount := 1, temporary := false, node := node, nodes := nodes },
            nodeCount := (c0.AddAll cfg t0 container path node nodes).nodeCount }) ∧
      mapGet ((c0.AddAll cfg t0 container path node nodes).GetAll cfg now container path).1.content
          (Cache.key container path) =
        (if cfg.CacheMaxAccess = 1 then none
        else some { date := t0, accessCount := 1, temporary := false, node := node,
                    nodes := nodes }) := by
  have hent := AddAll_entry cfg t0 c0 container path node nodes
  rw [hent] at hnt
  simp only [Option.map_some', Option.some.injEq] at hnt
  rw [hnt] at hent
  have hadd : addU64 0 1 = 1 := by decide
  obtain ⟨hw1, hw2, hw3, hw4⟩ := hwf
  refine ⟨hent, ?_⟩
  by_cases hA : cfg.CacheMaxAccess = 1
  · have hev : ¬ (cfg.CacheMaxAccess < 0) ∧
        addU64 (CacheValue.mk t0 0 false node nodes).accessCount 1 = toUint64 cfg.CacheMaxAccess := by
      rw [hA]
      refine ⟨by decide, ?_⟩
      show addU64 0 1 = toUint64 1
      decide
    have hg := GetAll_live_evict cfg now _ container path _ hent rfl hnow hev
    rw [hg, if_pos hA, if_pos hA]
    refine ⟨rfl, ?_, ?_⟩
    · rw [deleteAllBody_of_permanent _ container path
        (CacheValue.mk t0 1 false node nodes) (mapGet_mapSet_self _ _ _) rfl]
      simp [CacheValue.touch, hadd]
    · exact mapGet_mapDelete_self _ _
  · have hkeep : ¬ (¬ (cfg.CacheMaxAccess < 0) ∧
        addU64 (CacheValue.mk t0 0 false node nodes).accessCount 1 = toUint64 cfg.CacheMaxAccess) := by
      rintro ⟨h0, h1⟩
      have h2 : (toUint64 cfg.CacheMaxAccess : Int) = cfg.CacheMaxAccess :=
        toUint64_of_nonneg _ (by omega) (by omega)
      rw [← h1, hadd] at h2
      exact hA (by simpa using h2.symm)
    have hg := GetAll_live_keep cfg now _ container path _ hent rfl hnow hkeep
    rw [hg, if_neg hA, if_neg hA]
    refine ⟨rfl, ?_, ?_⟩
    · simp [CacheValue.touch, hadd]
    · simp [CacheValue.touch, hadd, mapGet_mapSet_self]

/-- C4 at a concrete input: unlimited budget and access, one child, read at
time 1 of an entry created at time 0 with TTL 10. -/
theorem C4_AddAll_GetAll_round_trip_witness :
    (((NewCache String).AddAll cfgUnlimited 0 "c" "p" (some "P") kidA).GetAll
        cfgUnlimited 1 "c" "p").2 = (some "P", kidA) ∧
    mapGet (((NewCache String).AddAll cfgUnlimited 0 "c" "p" (some "P") kidA).GetAll
        cfgUnlimited 1 "c" "p").1.content (Cache.key "c" "p") =
      some { date := 0, accessCount := 1, temporary := false, node := some "P", nodes := kidA } :=
  have h := C4_AddAll_GetAll_round_trip cfgUnlimited (by decide) (NewCache String) 0 1 "c" "p"
    (some "P") kidA (by decide) (by decide)
  ⟨h.2.1, h.2.2.2.trans (by decide)⟩

/-- C5 (the code on a key with no entry): `DeleteAll` locks the entry mutex
through the nil pointer that the failed lookup produced, before `found` is
tested, and panics; no state is returned. -/
theorem C5_DeleteAll_missing_key_panics {N : Type} (c : Cache N) (container path : String)
    (h : mapGet c.content (Cache.key container path) = none) :
    c.DeleteAll container path = none := by
  unfold Cache.DeleteAll Cache.deleteAll
  rw [h]

/-- C5 at a concrete input: `DeleteAll("c", "p")` on the empty cache panics. -/
theorem C5_DeleteAll_missing_key_panics_witness :
    mapGet (NewCache String).content (Cache.key "c" "p") = none ∧
    (NewCache String).DeleteAll "c" "p" = none :=
  ⟨by decide, C5_DeleteAll_missing_key_panics (NewCache String) "c" "p" (by decide)⟩

/-- C6 (counterexample): after `AddAll("c", "p", P, {})` and
`Set("c", "p", "a", A)` the non-temporary entry holds 1 child while the node
count is 0; `DeleteAll("c", "p")` then leaves the node count at `2 ^ 64 - 1`,
which is not the old count decreased by 1. -/
theorem C6_DeleteAll_wraps_node_count :
    (NewCache String).run cfgUnlimited growTrace = some (grownState, [Ret.done, Ret.done]) ∧
    (mapGet grownState.content (Cache.key "c" "p")).map
      (fun v => (v.temporary, nodesLen v.nodes)) = some (false, 1) ∧
    grownState.nodeCount = 0 ∧
    (grownState.DeleteAll "c" "p").map (fun c => c.nodeCount) = some 18446744073709551615 ∧
    (grownState.DeleteAll "c" "p").map (fun c => (c.nodeCount : Int)) ≠
      some ((grownState.nodeCount : Int) - 1) := by
  decide

/-- C6 (amended): on a key holding an entry, `DeleteAll` completes.  If the
entry is non-temporary it is removed from the content map and the node count
is decreased by the number of children in uint64 arithmetic, which is the
exact difference whenever the entry holds no more children than the node count
says.  If the entry is temporary the cache is left as it is. -/
theorem C6_DeleteAll_accounting {N : Type} (c : Cache N) (hc : c.nodeCount < 2 ^ 64)
    (container path : String) (v : CacheValue N)
    (h : mapGet c.content (Cache.key container path) = some v) :
    (v.temporary = false →
      c.DeleteAll container path =
          some { content := mapDelete c.content (Cache.key container path),
                 nodeCount := subU64 c.nodeCount (nodesLen v.nodes) } ∧
        mapGet (mapDelete c.content (Cache.key container path)) (Cache.key container path)
          = none ∧
        (nodesLen v.nodes ≤ c.nodeCount →
          subU64 c.nodeCount (nodesLen v.nodes) = c.nodeCount - nodesLen v.nodes)) ∧
    (v.temporary = true → c.DeleteAll container path = some c) := by
  rw [DeleteAll_of_present c container path v h]
  constructor
  · intro ht
    rw [deleteAllBody_of_permanent c container path v h ht]
    exact ⟨rfl, mapGet_mapDelete_self _ _, fun hle => subU64_small _ _ hc hle⟩
  · intro ht
    rw [deleteAllBody_of_temporary c container path v h ht]

/-- C6 at concrete inputs: a non-temporary entry with one child and node count
1 is removed and the count drops to 0; a temporary entry stays. -/
theorem C6_DeleteAll_accounting_witness :
    ceilingState.DeleteAll "c" "p" = some (NewCache String) ∧
    tempState.DeleteAll "c" "p" = some tempState :=
  ⟨((C6_DeleteAll_accounting ceilingState (by decide) "c" "p"
      { date := 0, accessCount := 0, temporary := false, node := some "P", nodes := kidA }
      (by decide)).1 rfl).1.trans (by decide),
   (C6_DeleteAll_accounting tempState (by decide) "c" "p"
      { date := 0, accessCount := 0, temporary := true, node := some "P", nodes := kidA }
      (by decide)).2 rfl⟩

/-- C7 (counterexample): the calls `AddAll("c", "p", P, {})`,
`Set("c", "p", "a", A)`, `DeleteAll("c", "p")` under budget 5 leave the node
count at `2 ^ 64 - 1`.  An `AddAll` of one child then has budget `5 ≥ 0` and
`n + m = 2 ^ 64 ≥ 5`, yet the entry it stores is not temporary and the node
count becomes 0 rather than `n + m`. -/
theorem C7_AddAll_sum_wraps :
    (NewCache String).run cfgBudget5 wrapTrace = some (wrappedState, [Ret.done, Ret.done, Ret.done]) ∧
    (0 ≤ cfgBudget5.CacheMaxEntries ∧
      (wrappedState.nodeCount : Int) + (nodesLen kidA : Int) ≥ cfgBudget5.CacheMaxEntries) ∧
    (mapGet (wrappedState.AddAll cfgBudget5 3 "c" "q" (some "Q") kidA).content
      (Cache.key "c" "q")).map (fun v => v.temporary) = some false ∧
    (wrappedState.AddAll cfgBudget5 3 "c" "q" (some "Q") kidA).nodeCount = 0 ∧
    (wrappedState.AddAll cfgBudget5 3 "c" "q" (some "Q") kidA).nodeCount ≠
      wrappedState.nodeCount + nodesLen kidA := by
  decide

/-- C7 (amended): with int64 budget `B` and ceiling `A`, node count `n` and `m`
children, let `s = (n + m) mod 2 ^ 64` be the uint64 sum (it is `n + m` itself
when `n + m < 2 ^ 64`).  After `AddAll` the key maps to the new entry, with
access counter 0, which is temporary if and only if (`B ≥ 0` and `s ≥ B`) or
`A = 0`; the node count stays `n` when the entry is temporary and becomes `s`
when it is not. -/
theorem C7_AddAll_temporary_decision {N : Type} (cfg : Config) (hwf : cfg.wf) (c : Cache N)
    (t0 : Int) (container path : String) (node : Option N)
    (nodes : Option (GoMap (Option N))) :
    mapGet (c.AddAll cfg t0 container path node nodes).content (Cache.key container path) =
        some { date := t0, accessCount := 0,
               temporary := decide ((0 ≤ cfg.CacheMaxEntries ∧
                  cfg.CacheMaxEntries ≤ (((c.nodeCount + nodesLen nodes) % 2 ^ 64 : Nat) : Int)) ∨
                  cfg.CacheMaxAccess = 0),
               node := node, nodes := nodes } ∧
      (((0 ≤ cfg.CacheMaxEntries ∧
          cfg.CacheMaxEntries ≤ (((c.nodeCount + nodesLen nodes) % 2 ^ 64 : Nat) : Int)) ∨
          cfg.CacheMaxAccess = 0) →
        (c.AddAll cfg t0 container path node nodes).nodeCount = c.nodeCount) ∧
      (¬ ((0 ≤ cfg.CacheMaxEntries ∧
          cfg.CacheMaxEntries ≤ (((c.nodeCount + nodesLen nodes) % 2 ^ 64 : Nat) : Int)) ∨
          cfg.CacheMaxAccess = 0) →
        (c.AddAll cfg t0 container path node nodes).nodeCount =
          (c.nodeCount + nodesLen nodes) % 2 ^ 64) ∧
      (c.nodeCount + nodesLen nodes < 2 ^ 64 →
        (c.nodeCount + nodesLen nodes) % 2 ^ 64 = c.nodeCount + nodesLen nodes) := by
  obtain ⟨hw1, hw2, _, _⟩ := hwf
  have hiff : ((¬ (cfg.CacheMaxEntries < 0) ∧
        addU64 c.nodeCount (nodesLen nodes) ≥ toUint64 cfg.CacheMaxEntries) ∨
        cfg.CacheMaxAccess = 0) ↔
      ((0 ≤ cfg.CacheMaxEntries ∧
        cfg.CacheMaxEntries ≤ (((c.nodeCount + nodesLen nodes) % 2 ^ 64 : Nat) : Int)) ∨
        cfg.CacheMaxAccess = 0) := by
    apply or_congr_left
    constructor
    · rintro ⟨h0, h1⟩
      have h2 : (toUint64 cfg.CacheMaxEntries : Int) = cfg.CacheMaxEntries :=
        toUint64_of_nonneg _ (by omega) (by omega)
      refine ⟨by omega, ?_⟩
      rw [← h2]
      exact_mod_cast h1
    · rintro ⟨h0, h1⟩
      have h2 : (toUint64 cfg.CacheMaxEntries : Int) = cfg.CacheMaxEntries :=
        toUint64_of_nonneg _ h0 (by omega)
      refine ⟨by omega, ?_⟩
      rw [← h2] at h1
      have h3 : toUint64 cfg.CacheMaxEntries ≤ (c.nodeCount + nodesLen nodes) % 2 ^ 64 := by
        exact_mod_cast h1
      exact h3
  refine ⟨?_, ?_, ?_, fun hlt => Nat.mod_eq_of_lt hlt⟩
  · rw [AddAll_entry]
    simp only [hiff]
  · intro hT
    exact AddAll_nodeCount_of_temporary cfg t0 c container path node nodes (hiff.2 hT)
  · intro hT
    exact AddAll_nodeCount_of_permanent cfg t0 c container path node nodes
      (fun h => hT (hiff.1 h))

/-- C7 at a concrete input: five children added to the empty cache under
budget 5 make a temporary entry and leave the node count at 0. -/
theorem C7_AddAll_temporary_decision_witness :
    (mapGet scenarioFirst.content (Cache.key "c1" "/x")).map (fun v => v.temporary) = some true ∧
    scenarioFirst.nodeCount = 0 :=
  have h := C7_AddAll_temporary_decision cfgBudget5 (by decide) (NewCache String) 0 "c1" "/x"
    (some "P1") kids5
  ⟨(congrArg (Option.map (fun v => v.temporary)) h.1).trans (by decide), h.2.1 (by decide)⟩

/-- C8 (counterexample): in the scenario with budget 5 and unlimited access the
entry stored for `("c1", "/y")` is not temporary, and the second `GetAll` on it
within the TTL returns `(P2, child)` again rather than absent. -/
theorem C8_second_entry_not_temporary :
    (mapGet scenarioState.content (Cache.key "c1" "/y")).map (fun v => v.temporary)
      = some false ∧
    (scenarioState.GetAll cfgBudget5 2 "c1" "/y").2 = (some "P2", kidA) ∧
    ((scenarioState.GetAll cfgBudget5 2 "c1" "/y").1.GetAll cfgBudget5 3 "c1" "/y").2
      = (some "P2", kidA) ∧
    ((scenarioState.GetAll cfgBudget5 2 "c1" "/y").1.GetAll cfgBudget5 3 "c1" "/y").2
      ≠ (none, none) := by
  decide

/-- C8 (amended): from the empty cache with budget 5 and a negative ceiling,
`AddAll("c1", "/x", P1, 5 children)` stores a temporary entry (0 + 5 ≥ 5) and
leaves the node count at 0; the following `AddAll("c1", "/y", P2, 1 child)`
therefore stores a non-temporary entry and sets the node count to 1, and the
first and the next `GetAll("c1", "/y")` within the TTL both return
`(P2, that child)`. -/
theorem C8_budget_scenario {N : Type} (cfg : Config) (hB : cfg.CacheMaxEntries = 5)
    (hA : cfg.CacheMaxAccess < 0) (P1 P2 : Option N) (five one : Option (GoMap (Option N)))
    (h5 : nodesLen five = 5) (h1 : nodesLen one = 1) (t1 t2 now1 now2 : Int)
    (hn1 : now1 ≤ t2 + cfg.CacheTimeout) (hn2 : now2 ≤ t2 + cfg.CacheTimeout) :
    (mapGet ((NewCache N).AddAll cfg t1 "c1" "/x" P1 five).content (Cache.key "c1" "/x")).map
        (fun v => v.temporary) = some true ∧
      ((NewCache N).AddAll cfg t1 "c1" "/x" P1 five).nodeCount = 0 ∧
      (mapGet (((NewCache N).AddAll cfg t1 "c1" "/x" P1 five).AddAll cfg t2 "c1" "/y" P2
        one).content (Cache.key "c1" "/y")).map (fun v => v.temporary) = some false ∧
      (((NewCache N).AddAll cfg t1 "c1" "/x" P1 five).AddAll cfg t2 "c1" "/y" P2
        one).nodeCount = 1 ∧
      ((((NewCache N).AddAll cfg t1 "c1" "/x" P1 five).AddAll cfg t2 "c1" "/y" P2
        one).GetAll cfg now1 "c1" "/y").2 = (P2, one) ∧
      (((((NewCache N).AddAll cfg t1 "c1" "/x" P1 five).AddAll cfg t2 "c1" "/y" P2
        one).GetAll cfg now1 "c1" "/y").1.GetAll cfg now2 "c1" "/y").2 = (P2, one) := by
  have hto : toUint64 cfg.CacheMaxEntries = 5 := by
    rw [hB]
    decide
  have hc1 : (¬ (cfg.CacheMaxEntries < 0) ∧
      addU64 (NewCache N).nodeCount (nodesLen five) ≥ toUint64 cfg.CacheMaxEntries) ∨
      cfg.CacheMaxAccess = 0 := by
    left
    rw [hto, h5, hB]
    refine ⟨by decide, ?_⟩
    show addU64 0 5 ≥ 5
    decide
  have hs1 : ((NewCache N).AddAll cfg t1 "c1" "/x" P1 five).nodeCount = 0 :=
    AddAll_nodeCount_of_temporary cfg t1 (NewCache N) "c1" "/x" P1 five hc1
  have hc2 : ¬ ((¬ (cfg.CacheMaxEntries < 0) ∧
      addU64 ((NewCache N).AddAll cfg t1 "c1" "/x" P1 five).nodeCount (nodesLen one) ≥
        toUint64 cfg.CacheMaxEntries) ∨ cfg.CacheMaxAccess = 0) := by
    rw [hs1, hto, h1]
    rintro (⟨_, h⟩ | h)
    · exact absurd h (by decide)
    · omega
  have he2 := AddAll_entry cfg t2 ((NewCache N).AddAll cfg t1 "c1" "/x" P1 five) "c1" "/y" P2 one
  rw [decide_eq_false hc2] at he2
  have hkeep : ∀ j : Nat, ¬ (¬ (cfg.CacheMaxAccess < 0) ∧
      addU64 (CacheValue.mk t2 j false P2 one).accessCount 1 = toUint64 cfg.CacheMaxAccess) :=
    fun _ h => h.1 hA
  have hg1 := GetAll_live_keep cfg now1 _ "c1" "/y" _ he2 rfl hn1 (hkeep 0)
  refine ⟨?_, hs1, ?_, ?_, ?_, ?_⟩
  · rw [AddAll_entry, decide_eq_true hc1]
    rfl
  · rw [he2]
    rfl
  · rw [AddAll_nodeCount_of_permanent cfg t2 _ "c1" "/y" P2 one hc2, hs1, h1]
    decide
  · rw [hg1]
  · rw [hg1]
    have he3 : mapGet (Cache.mk (mapSet (((NewCache N).AddAll cfg t1 "c1" "/x" P1 five).AddAll
        cfg t2 "c1" "/y" P2 one).content (Cache.key "c1" "/y")
        (CacheValue.mk t2 0 false P2 one).touch)
        (((NewCache N).AddAll cfg t1 "c1" "/x" P1 five).AddAll cfg t2 "c1" "/y" P2
          one).nodeCount).content (Cache.key "c1" "/y") =
        some (CacheValue.mk t2 0 false P2 one).touch := mapGet_mapSet_self _ _ _
    have hg2 := GetAll_live_keep cfg now2 _ "c1" "/y" _ he3 rfl hn2
      (hkeep (addU64 0 1))
    rw [hg2]
    rfl

/-- C8 at the concrete scenario: the entry for `"/x"` is temporary, the one
for `"/y"` is not, the node count is 1, and two reads of `"/y"` at times 2 and
3 both return `(P2, child)`. -/
theorem C8_budget_scenario_witness :
    (mapGet scenarioFirst.content (Cache.key "c1" "/x")).map (fun v => v.temporary)
      = some true ∧
    (mapGet scenarioState.content (Cache.key "c1" "/y")).map (fun v => v.temporary)
      = some false ∧
    scenarioState.nodeCount = 1 ∧
    ((scenarioState.GetAll cfgBudget5 2 "c1" "/y").1.GetAll cfgBudget5 3 "c1" "/y").2
      = (some "P2", kidA) :=
  have h := C8_budget_scenario cfgBudget5 rfl (by decide) (some "P1") (some "P2") kids5 kidA
    rfl rfl 0 1 2 3 (by decide) (by decide)
  ⟨h.1, h.2.2.1, h.2.2.2.1, h.2.2.2.2.2⟩

/-- C9 (the code at the failing input): the state reached from the empty cache
by `AddAll("c", "p", P, {})` and `Set("c", "p", "a", A)` holds one child in a
non-temporary entry while its node count is 0, so the node count differs from
the number of children held by the non-temporary entries. -/
theorem C9_Set_breaks_budget_invariant :
    (NewCache String).run cfgUnlimited growTrace = some (grownState, [Ret.done, Ret.done]) ∧
    (mapGet grownState.content (Cache.key "c" "p")).map (fun v => v.temporary) = some false ∧
    grownState.budgetTotal = 1 ∧
    grownState.nodeCount = 0 ∧
    grownState.nodeCount ≠ grownState.budgetTotal := by
  decide

/-- The accounting that the code does keep: in every state reachable from the
empty cache by calls of `Get`, `GetAll`, `Peek`, `DeleteAll`, and of `AddAll`,
`Set` and `Delete` made on keys whose entry is missing or temporary at the time
of the call, the node count equals, modulo `2 ^ 64`, the total number of
children held by the non-temporary entries in the cache. -/
theorem tracked_budget_invariant {N : Type} (cfg : Config) (c : Cache N)
    (h : TrackedReach cfg c) : c.nodeCount = c.budgetTotal % 2 ^ 64 :=
  (tracked_budget cfg c h).2

/-- The two `AddAll` calls of the budget scenario are tracked, and the node
count 1 is the one child of the non-temporary entry. -/
theorem tracked_budget_invariant_scenario :
    scenarioState.budgetTotal = 1 ∧ scenarioState.nodeCount = scenarioState.budgetTotal % 2 ^ 64 :=
  ⟨by decide,
   tracked_budget_invariant cfgBudget5 scenarioState
    (TrackedReach.call
      (TrackedReach.call TrackedReach.init
        (show (Op.AddAll "c1" "/x" (some "P1") kids5).tracked (NewCache String) from
          fun v hv => by
            rw [show mapGet (NewCache String).content (Cache.key "c1" "/x") = none by decide] at hv
            cases hv)
        (show (NewCache String).step cfgBudget5 0 (Op.AddAll "c1" "/x" (some "P1") kids5) =
          some (scenarioFirst, Ret.done) from rfl))
      (show (Op.AddAll "c1" "/y" (some "P2") kidA).tracked scenarioFirst from
        fun v hv => by
          rw [show mapGet scenarioFirst.content (Cache.key "c1" "/y") = none by decide] at hv
          cases hv)
      (show scenarioFirst.step cfgBudget5 1 (Op.AddAll "c1" "/y" (some "P2") kidA) =
        some (scenarioState, Ret.done) from rfl))⟩

/-! ## Calls on one key and reads of another, with children maps by reference -/

theorem RefCache.deleteAllBody_heap {N : Type} (c : RefCache N) (container path : String) :
    (c.deleteAllBody container path).heap = c.heap := by
  unfold RefCache.deleteAllBody
  split
  · split_ifs <;> rfl
  · rfl

theorem RefCache.deleteAllBody_content_frame {N : Type} (c : RefCache N) (container path k : String)
    (hk : Cache.key container path ≠ k) :
    mapGet (c.deleteAllBody container path).content k = mapGet c.content k := by
  unfold RefCache.deleteAllBody
  split
  · split_ifs
    · simp [mapGet_mapDelete_ne _ _ _ hk]
    · rfl
  · rfl

theorem RefCache.DeleteAll_eq_some_body {N : Type} (c c' : RefCache N) (container path : String)
    (h : c.DeleteAll container path = some c') : c' = c.deleteAllBody container path := by
  unfold RefCache.DeleteAll RefCache.deleteAll at h
  split at h
  · cases h
  · simpa using h.symm

theorem RefCache.GetAll_heap {N : Type} (cfg : Config) (now : Int) (c : RefCache N)
    (container path : String) : (c.GetAll cfg now container path).1.heap = c.heap := by
  unfold RefCache.GetAll
  split
  · rfl
  · simp only
    split_ifs
    · rw [RefCache.deleteAllBody_heap]
    · rw [RefCache.deleteAllBody_heap]
    · rfl

theorem RefCache.GetAll_content_frame {N : Type} (cfg : Config) (now : Int) (c : RefCache N)
    (container path k : String) (hk : Cache.key container path ≠ k) :
    mapGet (c.GetAll cfg now container path).1.content k = mapGet c.content k := by
  unfold RefCache.GetAll
  split
  · rfl
  · simp only
    split_ifs
    · rw [RefCache.deleteAllBody_content_frame _ _ _ _ hk]
      simp [mapGet_mapSet_ne _ _ _ _ hk]
    · rw [RefCache.deleteAllBody_content_frame _ _ _ _ hk]
      simp [mapGet_mapSet_ne _ _ _ _ hk]
    · simp [mapGet_mapSet_ne _ _ _ _ hk]

theorem RefCache.GetAll_ref {N : Type} (cfg : Config) (now : Int) (c : RefCache N)
    (container path : String) :
    (c.GetAll cfg now container path).2.2 = none ∨
      (c.GetAll cfg now container path).2.2 = c.mapAt container path := by
  unfold RefCache.GetAll RefCache.mapAt
  cases mapGet c.content (Cache.key container path) with
  | none => exact Or.inl rfl
  | some v =>
    simp only
    split_ifs
    · exact Or.inl rfl
    · exact Or.inr rfl
    · exact Or.inr rfl

/-- A call that completes leaves the entry of every key it does not address
untouched. -/
theorem RefCache.step_content_frame {N : Type} (cfg : Config) (now : Int) (c c' : RefCache N)
    (op : RefOp N) (k : String) (hk : Cache.key op.target.1 op.target.2 ≠ k)
    (h : c.step cfg now op = some c') : mapGet c'.content k = mapGet c.content k := by
  cases op with
  | AddAll container path node nodes =>
    simp only [RefCache.step, Option.some.injEq] at h
    simp only [RefOp.target] at hk
    rw [← h]
    unfold RefCache.AddAll
    split_ifs <;> simp [mapGet_mapSet_ne _ _ _ _ hk]
  | Delete container path name =>
    simp only [RefCache.step, Option.some.injEq] at h
    rw [← h]
    unfold RefCache.Delete
    split
    · rfl
    · split <;> rfl
  | DeleteAll container path =>
    simp only [RefCache.step] at h
    simp only [RefOp.target] at hk
    rw [RefCache.DeleteAll_eq_some_body c c' container path h]
    exact RefCache.deleteAllBody_content_frame c container path k hk
  | Get container path name =>
    simp only [RefCache.step, Option.some.injEq] at h
    rw [← h]
  | GetAll container path =>
    simp only [RefCache.step, Option.some.injEq] at h
    simp only [RefOp.target] at hk
    rw [← h]
    exact RefCache.GetAll_content_frame cfg now c container path k hk
  | Peek container path =>
    simp only [RefCache.step, Option.some.injEq] at h
    rw [← h]
  | Set container path name node =>
    simp only [RefCache.step] at h
    unfold RefCache.Set at h
    split at h
    · simp only [Option.some.injEq] at h
      rw [← h]
    · split at h
      · cases h
      · simp only [Option.some.injEq] at h
        rw [← h]

/-- A call that completes writes no map object, except that `Set` and `Delete`
write the one held by the entry they address. -/
theorem RefCache.step_heap_frame {N : Type} (cfg : Config) (now : Int) (c c' : RefCache N)
    (op : RefOp N) (r : Nat)
    (hr : op.writesChildren = true → c.mapAt op.target.1 op.target.2 ≠ some r)
    (h : c.step cfg now op = some c') : c'.heap r = c.heap r := by
  cases op with
  | AddAll container path node nodes =>
    simp only [RefCache.step, Option.some.injEq] at h
    rw [← h]
    unfold RefCache.AddAll
    split_ifs <;> rfl
  | Delete container path name =>
    simp only [RefCache.step, Option.some.injEq] at h
    have hr' := hr rfl
    simp only [RefOp.target, RefCache.mapAt] at hr'
    rw [← h]
    unfold RefCache.Delete
    cases hg : mapGet c.content (Cache.key container path) with
    | none => rfl
    | some v =>
      rw [hg] at hr'
      simp only at hr' ⊢
      cases hn : v.nodes with
      | none => rfl
      | some r1 =>
        rw [hn] at hr'
        simp only [heapSet]
        rw [if_neg (fun e => hr' (by rw [e]))]
  | DeleteAll container path =>
    simp only [RefCache.step] at h
    rw [RefCache.DeleteAll_eq_some_body c c' container path h, RefCache.deleteAllBody_heap]
  | Get container path name =>
    simp only [RefCache.step, Option.some.injEq] at h
    rw [← h]
  | GetAll container path =>
    simp only [RefCache.step, Option.some.injEq] at h
    rw [← h, RefCache.GetAll_heap]
  | Peek container path =>
    simp only [RefCache.step, Option.some.injEq] at h
    rw [← h]
  | Set container path name node =>
    simp only [RefCache.step] at h
    have hr' := hr rfl
    simp only [RefOp.target, RefCache.mapAt] at hr'
    unfold RefCache.Set at h
    cases hg : mapGet c.content (Cache.key container path) with
    | none =>
      rw [hg] at h
      simp only [Option.some.injEq] at h
      rw [← h]
    | some v =>
      rw [hg] at h hr'
      simp only at h hr'
      cases hn : v.nodes with
      | none =>
        rw [hn] at h
        cases h
      | some r1 =>
        rw [hn] at h hr'
        simp only [Option.some.injEq] at h
        rw [← h]
        simp only [heapSet]
        rw [if_neg (fun e => hr' (by rw [e]))]

/-- C10 (counterexample): the pairs `("a:b", "c")` and `("a", "b:c")` differ but
have the same key, and an `AddAll` on the first changes what `GetAll` returns
for the second.  Moreover, with one map object stored under `("c", "p")` and
`("c", "q")`, whose keys differ, `Set("c", "p", "b", B)` changes what
`Get("c", "q", "b")` returns and what is read through the map that `GetAll`
returns for `("c", "q")`. -/
theorem C10_key_collision_and_shared_map :
    Cache.key "a:b" "c" = Cache.key "a" "b:c" ∧
    ¬ ("a:b" = "a" ∧ "c" = "b:c") ∧
    ((NewRefCache oneMapHeap).GetAll cfgUnlimited 1 "a" "b:c").2 = (none, none) ∧
    (((NewRefCache oneMapHeap).AddAll cfgUnlimited 0 "a:b" "c" (some "P") (some 0)).GetAll
      cfgUnlimited 1 "a" "b:c").2 = (some "P", some 0) ∧
    Cache.key "c" "p" ≠ Cache.key "c" "q" ∧
    sharedMapState.Get "c" "q" "b" = none ∧
    (sharedMapState.Set "c" "p" "b" (some "B")).map (fun c' => c'.Get "c" "q" "b")
      = some (some "B") ∧
    sharedMapState.GetAllView cfgUnlimited 1 "c" "q" = (some "Q", some [("a", some "A")]) ∧
    (sharedMapState.Set "c" "p" "b" (some "B")).map
        (fun c' => c'.GetAllView cfgUnlimited 1 "c" "q") =
      some (some "Q", some [("a", some "A"), ("b", some "B")]) := by
  decide

/-- C10 (amended): for container names without the character `':'` the
composite key is injective, and a call on `(c1, p1)` that completes leaves
unchanged, for any different pair `(c2, p2)`: what `Peek` returns, and the
parent and the map that `GetAll` returns.  After an `AddAll` or `DeleteAll`
(any call other than `Set` and `Delete`), and after a `Set` or `Delete` when
the entry of `(c2, p2)` does not hold the map object of the entry of
`(c1, p1)`, what `Get` returns and the children read through the map that
`GetAll` returns are unchanged as well. -/
theorem C10_key_independence {N : Type} (c1 p1 c2 p2 : String)
    (h1 : ':' ∉ c1.data) (h2 : ':' ∉ c2.data) :
    (Cache.key c1 p1 = Cache.key c2 p2 → c1 = c2 ∧ p1 = p2) ∧
    (¬ (c1 = c2 ∧ p1 = p2) →
      ∀ (cfg : Config) (now now' : Int) (c c' : RefCache N) (op : RefOp N) (name : String),
        op.target = (c1, p1) → c.step cfg now op = some c' →
          c'.Peek cfg now' c2 p2 = c.Peek cfg now' c2 p2 ∧
          (c'.GetAll cfg now' c2 p2).2 = (c.GetAll cfg now' c2 p2).2 ∧
          ((op.writesChildren = true → ∀ r, c.mapAt c1 p1 = some r → c.mapAt c2 p2 ≠ some r) →
            c'.Get c2 p2 name = c.Get c2 p2 name ∧
            c'.GetAllView cfg now' c2 p2 = c.GetAllView cfg now' c2 p2)) := by
  refine ⟨key_inj_of_no_colon c1 p1 c2 p2 h1 h2, ?_⟩
  intro hne cfg now now' c c' op name htgt hstep
  have hk : Cache.key op.target.1 op.target.2 ≠ Cache.key c2 p2 := by
    rw [htgt]
    exact fun h => hne (key_inj_of_no_colon c1 p1 c2 p2 h1 h2 h)
  have hfr := RefCache.step_content_frame cfg now c c' op (Cache.key c2 p2) hk hstep
  have hres : (c'.GetAll cfg now' c2 p2).2 = (c.GetAll cfg now' c2 p2).2 := by
    unfold RefCache.GetAll
    rw [hfr]
    split
    · rfl
    · simp only
      split_ifs <;> rfl
  have hmap : c'.mapAt c2 p2 = c.mapAt c2 p2 := by
    unfold RefCache.mapAt
    rw [hfr]
  refine ⟨?_, hres, ?_⟩
  · unfold RefCache.Peek
    rw [hfr]
  · intro hsh
    have hheap : ∀ r, c.mapAt c2 p2 = some r → c'.heap r = c.heap r := by
      intro r hr
      apply RefCache.step_heap_frame cfg now c c' op r _ hstep
      intro hw
      rw [htgt]
      exact fun h => hsh hw r h hr
    constructor
    · have hm := hheap
      unfold RefCache.mapAt at hm
      unfold RefCache.Get
      rw [hfr]
      cases hg : mapGet c.content (Cache.key c2 p2) with
      | none => rfl
      | some v =>
        rw [hg] at hm
        simp only at hm ⊢
        cases hn : v.nodes with
        | none => rfl
        | some r =>
          simp only
          rw [hm r hn]
    · unfold RefCache.GetAllView
      rw [hres, RefCache.GetAll_heap, RefCache.GetAll_heap]
      rcases RefCache.GetAll_ref cfg now' c c2 p2 with hnone | hsome
      · rw [hnone]
        rfl
      · cases hr : (c.GetAll cfg now' c2 p2).2.2 with
        | none => rfl
        | some r =>
          rw [hr] at hsome
          simp only [Option.map_some']
          rw [hheap r hsome.symm]

/-- C10 at concrete inputs: with two different map objects under `("c", "p")`
and `("c", "q")`, a `Set` on the first leaves every read of the second as it
was. -/
theorem C10_key_independence_witness :
    (separateMapState.Set "c" "p" "b" (some "B")).map (fun c' => c'.Peek cfgUnlimited 2 "c" "q")
      = some (some "Q", true) ∧
    (separateMapState.Set "c" "p" "b" (some "B")).map (fun c' => c'.Get "c" "q" "b")
      = some none ∧
    (separateMapState.Set "c" "p" "b" (some "B")).map
        (fun c' => c'.GetAllView cfgUnlimited 2 "c" "q") = some (some "Q", some []) :=
  have h := fun c' hstep =>
    (C10_key_independence "c" "p" "c" "q" (by decide) (by decide)).2 (by decide)
      cfgUnlimited 1 2 separateMapState c' (RefOp.Set "c" "p" "b" (some "B")) "b" rfl hstep
  have hs : separateMapState.Set "c" "p" "b" (some "B") =
      some { content := separateMapState.content, nodeCount := separateMapState.nodeCount,
             heap := heapSet separateMapState.heap 0
               (mapSet (separateMapState.heap 0) "b" (some "B")) } := rfl
  have hnot : (RefOp.Set "c" "p" "b" (some "B") : RefOp String).writesChildren = true →
      ∀ r, separateMapState.mapAt "c" "p" = some r → separateMapState.mapAt "c" "q" ≠ some r := by
    intro _ r hr
    rw [show separateMapState.mapAt "c" "p" = some 0 by decide] at hr
    rw [show separateMapState.mapAt "c" "q" = some 1 by decide]
    cases hr
    decide
  ⟨by rw [hs]; exact congrArg some ((h _ hs).1.trans (by decide)),
   by rw [hs]; exact congrArg some (((h _ hs).2.2 hnot).1.trans (by decide)),
   by rw [hs]; exact congrArg some (((h _ hs).2.2 hnot).2.trans (by decide))⟩

/-- C11: `Peek` hands the cache back as it was: one call, and any number of
calls at any times, leave the whole state (content map with every entry, node
count) unchanged, so no entry is evicted and no access counter moves.  The
call returns `(parent, true)` exactly when the key has an entry and `now` is
not after creation + TTL, and `(nil, false)` otherwise. -/
theorem C11_Peek_pure_read {N : Type} (cfg : Config) (c : Cache N) (container path : String)
    (now : Int) (times : List Int) :
    c.step cfg now (Op.Peek container path) =
        some (c, Ret.peek (c.Peek cfg now container path)) ∧
      c.run cfg (times.map (fun t => (t, Op.Peek container path))) =
        some (c, times.map (fun t => Ret.peek (c.Peek cfg t container path))) ∧
      c.Peek cfg now container path =
        (match mapGet c.content (Cache.key container path) with
          | some v => if now ≤ v.date + cfg.CacheTimeout then (v.node, true) else (none, false)
          | none => (none, false)) := by
  refine ⟨rfl, ?_, ?_⟩
  · induction times with
    | nil => rfl
    | cons t ts ih =>
      simp only [List.map_cons, Cache.run, Cache.step]
      rw [ih]
  · unfold Cache.Peek
    cases mapGet c.content (Cache.key container path) with
    | none => rfl
    | some v =>
      simp only
      split_ifs with h1 h2 h2
      · omega
      · rfl
      · rfl
      · omega

/-- C12: `Set` on a key with no entry leaves the cache as it is.  On a key
whose entry has a non-nil children map, `Set` completes; afterwards `Get` of
the name returns the node, `Get` of every other name returns what it returned
before, the node count is unchanged, and the entry is the old one (same
creation time, access counter, temporary flag and parent) with the one child
assigned in its children map. -/
theorem C12_Set_semantics {N : Type} (c : Cache N) (container path name : String)
    (node : Option N) :
    (mapGet c.content (Cache.key container path) = none →
      c.Set container path name node = some c) ∧
    (∀ (v : CacheValue N) (m : GoMap (Option N)),
      mapGet c.content (Cache.key container path) = some v → v.nodes = some m →
      ∃ c' : Cache N, c.Set container path name node = some c' ∧
        c'.Get container path name = node ∧
        (∀ other : String, other ≠ name →
          c'.Get container path other = c.Get container path other) ∧
        mapGet c'.content (Cache.key container path) =
          some { date := v.date, accessCount := v.accessCount, temporary := v.temporary,
                 node := v.node, nodes := some (mapSet m name node) } ∧
        (∀ other : String, other ≠ name →
          mapGet (mapSet m name node) other = mapGet m other) ∧
        c'.nodeCount = c.nodeCount) := by
  refine ⟨Set_of_absent c container path name node, ?_⟩
  intro v m h hn
  refine ⟨_, Set_of_children c container path name node v m h hn, ?_, ?_, ?_, ?_, rfl⟩
  · simp [Cache.Get, mapGet_mapSet_self]
  · intro other ho
    simp [Cache.Get, mapGet_mapSet_self, h, hn, mapGet_mapSet_ne m name other node (Ne.symm ho)]
  · exact mapGet_mapSet_self _ _ _
  · intro other ho
    exact mapGet_mapSet_ne m name other node (Ne.symm ho)

/-- C12 at concrete inputs: `Set` on the empty cache changes nothing, and `Set`
of a new child `"b"` on an entry holding `"a"` makes `Get` return it. -/
theorem C12_Set_semantics_witness :
    (NewCache String).Set "c" "p" "b" (some "B") = some (NewCache String) ∧
    (plainState.Set "c" "p" "b" (some "B")).map (fun c' => c'.Get "c" "p" "b")
      = some (some "B") ∧
    (plainState.Set "c" "p" "b" (some "B")).map (fun c' => c'.Get "c" "p" "a")
      = some (some "A") :=
  ⟨(C12_Set_semantics (NewCache String) "c" "p" "b" (some "B")).1 (by decide),
   (by
    obtain ⟨c', h1, h2, _⟩ := (C12_Set_semantics plainState "c" "p" "b" (some "B")).2
      { date := 0, accessCount := 0, temporary := false, node := some "P", nodes := kidA }
      [("a", some "A")] (by decide) rfl
    rw [h1]
    exact congrArg some h2),
   (by
    obtain ⟨c', h1, _, h3, _⟩ := (C12_Set_semantics plainState "c" "p" "b" (some "B")).2
      { date := 0, accessCount := 0, temporary := false, node := some "P", nodes := kidA }
      [("a", some "A")] (by decide) rfl
    rw [h1]
    exact congrArg some ((h3 "a" (by decide)).trans (by decide)))⟩

/-- Reads of one key holding a non-temporary entry under a negative access
ceiling, interleaved with calls on other keys: every read within the TTL
returns the listing and the entry stays bound. -/
theorem unbounded_trace {N : Type} (cfg : Config) (hA : cfg.CacheMaxAccess < 0)
    (container path : String) (t0 : Int) (node : Option N)
    (nodes : Option (GoMap (Option N))) :
    ∀ (tr : List (Int × Op N)) (c c' : Cache N) (rets : List (Ret N)),
      (∃ cnt : Nat, mapGet c.content (Cache.key container path) =
        some { date := t0, accessCount := cnt, temporary := false, node := node,
               nodes := nodes }) →
      (∀ e ∈ tr, e.2.key = Cache.key container path →
        e.2.isGetAll = true ∧ e.1 ≤ t0 + cfg.CacheTimeout) →
      c.run cfg tr = some (c', rets) →
      retsAt (Cache.key container path) tr rets =
          List.replicate (retsAt (Cache.key container path) tr rets).length
            (Ret.listing (node, nodes)) ∧
        ∃ cnt : Nat, mapGet c'.content (Cache.key container path) =
          some { date := t0, accessCount := cnt, temporary := false, node := node,
                 nodes := nodes } := by
  intro tr
  induction tr with
  | nil =>
    intro c c' rets hinv _ hrun
    simp only [Cache.run, Option.some.injEq, Prod.mk.injEq] at hrun
    obtain ⟨rfl, rfl⟩ := hrun
    exact ⟨by simp [retsAt], hinv⟩
  | cons e tr ih =>
    intro c c' rets hinv hops hrun
    obtain ⟨now, op⟩ := e
    obtain ⟨c1, r, rs, hstep, hrest, rfl⟩ := run_cons cfg c c' now op tr rets hrun
    have hops' : ∀ e ∈ tr, e.2.key = Cache.key container path →
        e.2.isGetAll = true ∧ e.1 ≤ t0 + cfg.CacheTimeout :=
      fun e he => hops e (List.mem_cons_of_mem _ he)
    by_cases hk : op.key = Cache.key container path
    · obtain ⟨hg, hnow⟩ := hops (now, op) (List.mem_cons_self _ _) hk
      rw [step_GetAll_of_key cfg now c op container path hk hg] at hstep
      simp only [Option.some.injEq, Prod.mk.injEq] at hstep
      obtain ⟨hc1, hr⟩ := hstep
      obtain ⟨cnt, hcnt⟩ := hinv
      have hg1 := GetAll_live_keep cfg now c container path _ hcnt rfl hnow (fun h => h.1 hA)
      rw [hg1] at hc1 hr
      simp only at hc1 hr
      have hinv1 : ∃ cnt : Nat, mapGet c1.content (Cache.key container path) =
          some { date := t0, accessCount := cnt, temporary := false, node := node,
                 nodes := nodes } := by
        refine ⟨addU64 cnt 1, ?_⟩
        rw [← hc1]
        simp [mapGet_mapSet_self, CacheValue.touch]
      obtain ⟨ih1, ih2⟩ := ih c1 c' rs hinv1 hops' hrest
      simp only [retsAt, hk, if_true, List.length_cons, List.replicate_succ]
      refine ⟨?_, ih2⟩
      rw [← ih1, ← hr]
    · have hfr := step_frame cfg now c c1 op r (Cache.key container path) hk hstep
      rw [← hfr] at hinv
      obtain ⟨ih1, ih2⟩ := ih c1 c' rs hinv hops' hrest
      simp only [retsAt, hk, if_false]
      exact ⟨ih1, ih2⟩

/-- C13: under a negative access ceiling, take a key holding a non-temporary
entry and any run of calls in which the only calls addressing that key are
`GetAll` calls made within the TTL (calls on other keys may be interleaved).
Then every one of these reads, however many, returns the stored
(parent, children), and after the run the entry is still in the cache with
the same creation time, flag, parent and children. -/
theorem C13_negative_ceiling_unbounded {N : Type} (cfg : Config) (hA : cfg.CacheMaxAccess < 0)
    (c : Cache N) (container path : String) (v : CacheValue N)
    (h : mapGet c.content (Cache.key container path) = some v) (ht : v.temporary = false)
    (tr : List (Int × Op N)) (c' : Cache N) (rets : List (Ret N))
    (hops : ∀ e ∈ tr, e.2.key = Cache.key container path →
      e.2.isGetAll = true ∧ e.1 ≤ v.date + cfg.CacheTimeout)
    (hrun : c.run cfg tr = some (c', rets)) :
    retsAt (Cache.key container path) tr rets =
        List.replicate (retsAt (Cache.key container path) tr rets).length
          (Ret.listing (v.node, v.nodes)) ∧
      (mapGet c'.content (Cache.key container path)).map
          (fun e => (e.date, e.temporary, e.node, e.nodes)) =
        some (v.date, false, v.node, v.nodes) := by
  have hinv : ∃ cnt : Nat, mapGet c.content (Cache.key container path) =
      some { date := v.date, accessCount := cnt, temporary := false, node := v.node,
             nodes := v.nodes } := by
    refine ⟨v.accessCount, ?_⟩
    rw [h, ← ht]
  obtain ⟨r1, cnt, r2⟩ := unbounded_trace cfg hA container path v.date v.node v.nodes tr c c'
    rets hinv hops hrun
  refine ⟨r1, ?_⟩
  rw [r2]
  rfl

/-- C13 at a concrete input: ceiling -1, three reads of the key with a lookup
on another key in between all return the listing, and the entry is still
there with access counter 3. -/
theorem C13_negative_ceiling_unbounded_witness :
    plainState.run cfgUnlimited readTrace = some (readFinal, readRets) ∧
    retsAt (Cache.key "c" "p") readTrace readRets =
      [Ret.listing (some "P", kidA), Ret.listing (some "P", kidA),
        Ret.listing (some "P", kidA)] ∧
    (mapGet readFinal.content (Cache.key "c" "p")).map
        (fun e => (e.date, e.temporary, e.node, e.nodes)) =
      some (0, false, some "P", kidA) :=
  have h := C13_negative_ceiling_unbounded cfgUnlimited (by decide) plainState "c" "p"
    { date := 0, accessCount := 0, temporary := false, node := some "P", nodes := kidA }
    (by decide) rfl readTrace readFinal readRets (by decide) (by decide)
  ⟨by decide, h.1.trans (by decide), h.2⟩

/-- C14: on a key with no entry, `GetAll` returns `(nil, nil)` and `Get`
returns nil for every child name, and both calls leave the cache as it was.
`Get` also returns nil when the entry exists but its children map is nil or
has no child of that name. -/
theorem C14_misses_on_unknown_keys {N : Type} (cfg : Config) (c : Cache N)
    (container path : String) :
    (mapGet c.content (Cache.key container path) = none →
      ∀ (now : Int) (name : String),
        c.GetAll cfg now container path = (c, (none, none)) ∧
        c.Get container path name = none ∧
        c.step cfg now (Op.GetAll container path) = some (c, Ret.listing (none, none)) ∧
        c.step cfg now (Op.Get container path name) = some (c, Ret.node none)) ∧
    (∀ (v : CacheValue N) (name : String),
      mapGet c.content (Cache.key container path) = some v →
      (v.nodes = none ∨ ∃ m, v.nodes = some m ∧ mapGet m name = none) →
      c.Get container path name = none) := by
  constructor
  · intro h now name
    have hg := GetAll_absent cfg now c container path h
    have hget : c.Get container path name = none := by
      simp only [Cache.Get, h]
    refine ⟨hg, hget, ?_, ?_⟩
    · simp only [Cache.step, hg]
    · simp only [Cache.step, hget]
  · intro v name h hn
    rcases hn with hn | ⟨m, hn, hm⟩
    · simp only [Cache.Get, h, hn]
    · simp only [Cache.Get, h, hn, hm]
      rfl

/-- C14 at concrete inputs: reads of a key of the empty cache miss, and `Get`
of the name `"b"` on an entry holding only `"a"` returns nil. -/
theorem C14_misses_on_unknown_keys_witness :
    (NewCache String).GetAll cfgUnlimited 1 "c" "p" = (NewCache String, (none, none)) ∧
    (NewCache String).Get "c" "p" "a" = none ∧
    plainState.Get "c" "p" "b" = none :=
  have h := (C14_misses_on_unknown_keys cfgUnlimited (NewCache String) "c" "p").1 (by decide)
    1 "a"
  ⟨h.1, h.2.1,
   (C14_misses_on_unknown_keys cfgUnlimited plainState "c" "p").2
    { date := 0, accessCount := 0, temporary := false, node := some "P", nodes := kidA } "b"
    (by decide) (Or.inr ⟨[("a", some "A")], rfl, by decide⟩)⟩

/-! ## Override cache lemmas -/

theorem applyAll_snoc {N : Type} (c : SimpleCache N) (ops : List (ChangeOp N)) (op : ChangeOp N) :
    c.applyAll (ops ++ [op]) = (c.applyAll ops).apply op := by
  simp [SimpleCache.applyAll, List.foldl_append]

theorem lastCall_snoc {N : Type} (k : String) (ops : List (ChangeOp N)) (op : ChangeOp N) :
    lastCall k (ops ++ [op]) = if op.key = k then some op else lastCall k ops := by
  simp only [lastCall, List.reverse_append, List.reverse_cons, List.reverse_nil, List.nil_append,
    List.singleton_append, List.find?_cons]
  by_cases h : op.key = k
  · simp [h]
  · simp [h]

/-- After any sequence of `Add` and `Remove` calls on an empty override cache,
a key is bound exactly as its most recent call left it. -/
theorem applyAll_lookup {N : Type} (k : String) (ops : List (ChangeOp N)) :
    mapGet ((NewSimpleCache N).applyAll ops).changes k = boundNode (lastCall k ops) := by
  induction ops using List.reverseRecOn with
  | nil => rfl
  | append_singleton ops op ih =>
    rw [applyAll_snoc, lastCall_snoc]
    by_cases h : op.key = k
    · rw [if_pos h]
      cases op with
      | Add container path node =>
        simp only [ChangeOp.key] at h
        simp only [SimpleCache.apply, SimpleCache.Add, boundNode, h]
        exact mapGet_mapSet_self _ _ _
      | Remove container path =>
        simp only [ChangeOp.key] at h
        simp only [SimpleCache.apply, SimpleCache.Remove, boundNode, h]
        exact mapGet_mapDelete_self _ _
    · rw [if_neg h, ← ih]
      cases op with
      | Add container path node =>
        simp only [ChangeOp.key] at h
        simp only [SimpleCache.apply, SimpleCache.Add]
        exact mapGet_mapSet_ne _ _ _ _ h
      | Remove container path =>
        simp only [ChangeOp.key] at h
        simp only [SimpleCache.apply, SimpleCache.Remove]
        exact mapGet_mapDelete_ne _ _ _ h

/-- C15 (the code at the failing input): after `Add("c", "p", nil)` on an empty
override cache the key is in the map (an `Add` was made for it and no `Remove`
followed), yet `Exist("c", "p")` returns false: `Exist` tests the looked-up
value against nil instead of testing whether the key is present. -/
theorem C15_Exist_false_for_nil_node :
    (mapGet ((NewSimpleCache String).applyAll [ChangeOp.Add "c" "p" none]).changes
      (SimpleCache.key "c" "p")).isSome = true ∧
    boundNode (lastCall (SimpleCache.key "c" "p") [(ChangeOp.Add "c" "p" none : ChangeOp String)])
      = some none ∧
    ((NewSimpleCache String).applyAll [ChangeOp.Add "c" "p" none]).Exist "c" "p" = false := by
  decide

/-- What the override cache does after any sequence of `Add` and `Remove`
calls on an empty `SimpleCache`: a key is in the map exactly when the most
recent call on it is an `Add`, bound to the node of that `Add`; `Exist` returns
true exactly when that node is not nil; `Get` returns that node, and nil when
the key is not in the map; and after a `Remove` of the key `Get` returns nil
and `Exist` false. -/
theorem SimpleCache_binding_after_calls {N : Type} (ops : List (ChangeOp N)) (container path : String) :
    mapGet ((NewSimpleCache N).applyAll ops).changes (SimpleCache.key container path) =
        boundNode (lastCall (SimpleCache.key container path) ops) ∧
      (((NewSimpleCache N).applyAll ops).Exist container path = true ↔
        ∃ n : N, boundNode (lastCall (SimpleCache.key container path) ops) = some (some n)) ∧
      ((NewSimpleCache N).applyAll ops).Get container path =
        (boundNode (lastCall (SimpleCache.key container path) ops)).join ∧
      (((NewSimpleCache N).applyAll ops).Remove container path).Get container path = none ∧
      (((NewSimpleCache N).applyAll ops).Remove container path).Exist container path = false := by
  have hl := applyAll_lookup (SimpleCache.key container path) ops
  refine ⟨hl, ?_, ?_, ?_, ?_⟩
  · unfold SimpleCache.Exist
    rw [hl]
    cases boundNode (lastCall (SimpleCache.key container path) ops) with
    | none => simp
    | some b =>
      cases b with
      | none => simp
      | some n => simp
  · unfold SimpleCache.Get
    rw [hl]
  · simp [SimpleCache.Get, SimpleCache.Remove, mapGet_mapDelete_self]
  · simp [SimpleCache.Exist, SimpleCache.Remove, mapGet_mapDelete_self]

/-- C16 (counterexample): an `Object` whose segmentation flag is already set is
processed with fetched headers that carry no manifest header, so the marker
does not match; the published `Object` has the fetched descriptor and headers
and its flag is still true. -/
theorem C16_flag_not_cleared :
    plainConnection.segmentPathRegex
      (headerGet (plainConnection.Object "c1" "o1").2 plainConnection.manifestHeader) = false ∧
    processTask plainConnection (TaskNode.object flaggedObject) =
      [TaskNode.object
        { c := { Name := "c1" }, so := { Name := "fetched", info := 7 }, sh := [],
          segmented := true }] := by
  decide

/-- C16 (amended): for every `Object` task and every fetch result, the worker
publishes exactly one node, that `Object`, with its container unchanged, its
descriptor and header mapping equal to the fetched ones, and its segmentation
flag true if and only if the flag was true before or the manifest header of
the fetched headers matches the segment-path marker. -/
theorem C16_lister_segmentation {I : Type} (conn : SwiftConnection I) (o : Object I) :
    processTask conn (TaskNode.object o) =
      [TaskNode.object
        { c := o.c,
          so := (conn.Object o.c.Name o.so.Name).1,
          sh := (conn.Object o.c.Name o.so.Name).2,
          segmented := o.segmented ||
            conn.segmentPathRegex
              (headerGet (conn.Object o.c.Name o.so.Name).2 conn.manifestHeader) }] := by
  simp only [processTask]
  by_cases h : conn.segmentPathRegex
      (headerGet (conn.Object o.c.Name o.so.Name).2 conn.manifestHeader) = true
  · simp [h]
  · simp only [h, if_false]
    simp only [Bool.not_eq_true] at h
    simp [h]

/-- C18 (the code at the failing input): `AddAll("c", "p", P, nil)` stores an
entry whose children map is nil; `Set("c", "p", "a", A)` on it assigns into
the nil map and panics, so no state is returned. -/
theorem C18_Set_panics_on_nil_children :
    (mapGet nilChildrenState.content (Cache.key "c" "p")).map (fun v => v.nodes) = some none ∧
    nilChildrenState.Set "c" "p" "a" (some "A") = none := by
  decide

/-- C19 (the code at the failing input): the key `("c", "p")` holds a
non-temporary entry with 1 child and the node count is 1; `AddAll` of the same
listing on the same key stores a non-temporary entry and leaves the node count
at 2, which is `n + m` and not `n - k + m = 1`, while the cache holds 1 child. -/
theorem C19_replacement_keeps_old_share :
    (mapGet plainState.content (Cache.key "c" "p")).map
      (fun v => (v.temporary, nodesLen v.nodes)) = some (false, 1) ∧
    plainState.nodeCount = 1 ∧
    (mapGet (plainState.AddAll cfgUnlimited 1 "c" "p" (some "P") kidA).content
      (Cache.key "c" "p")).map (fun v => v.temporary) = some false ∧
    (plainState.AddAll cfgUnlimited 1 "c" "p" (some "P") kidA).nodeCount = 2 ∧
    (plainState.AddAll cfgUnlimited 1 "c" "p" (some "P") kidA).nodeCount ≠ 1 - 1 + 1 ∧
    (plainState.AddAll cfgUnlimited 1 "c" "p" (some "P") kidA).budgetTotal = 1 := by
  decide

end Svfs
